import Mathlib

/-!
# Verification of the vibed-pathfinder core

A shallow embedding of the TypeScript sources of `mizchi/vibed-pathfinder`:
the edge validator (`graph-validator.ts`, `types.ts`), the graph builder
(`graph-builder.ts`), the value-semantics priority queue
(`priority-queue.ts`), the Dijkstra path engine (`path-finder.ts`) and the
structural analyzer (`graph-analyzer.ts`), together with proofs and
refutations of the specification's claims about them.

JavaScript numbers are modelled as exact rationals (`ℚ`), with `Infinity`
modelled as the top element of `WithTop ℚ`; `NaN`, `±Infinity`, `null`,
`undefined`, objects and arrays appear as explicit constructors of the raw
value type `JsValue` where the validator needs to distinguish them.
JavaScript `Map`s are modelled as insertion-ordered association lists, and
JavaScript `Set`s as insertion-ordered duplicate-free lists.
-/

/-- Raw JavaScript values, as far as the validator can distinguish them.
`str` and `num` are the two well-typed `Node` shapes (`typeof` gives
`"string"` resp. `"number"`); `nan`, `inf` and `negInf` also have
`typeof === "number"`.  Equality of this type is JavaScript's
SameValueZero (the equality used by `Map` and `Set`): note that
SameValueZero treats `NaN` as equal to `NaN` and `-0` as equal to `0`
(there is a single rational zero). -/
inductive JsValue where
  | str (s : String)
  | num (q : ℚ)
  | nan
  | inf
  | negInf
  | nullV
  | undef
  | object
  | array
deriving DecidableEq

/-- JavaScript strict equality `===` on raw values.  It agrees with
SameValueZero except that `NaN === x` and `x === NaN` are always false. -/
def strictEq (a b : JsValue) : Bool :=
  if a = JsValue.nan ∨ b = JsValue.nan then false else a = b

/-- JavaScript truthiness test for a value used as `!v`: the empty string,
the number `0` and `NaN` (as well as `null`/`undefined`) are falsy. -/
def jsFalsy (v : JsValue) : Bool :=
  match v with
  | JsValue.str s => s = ""
  | JsValue.num q => q = 0
  | JsValue.nan => true
  | JsValue.nullV => true
  | JsValue.undef => true
  | _ => false

/-- `typeof v === "number"` (true for finite numbers, `NaN` and `±Infinity`). -/
def typeofNumber (v : JsValue) : Bool :=
  match v with
  | JsValue.num _ => true
  | JsValue.nan => true
  | JsValue.inf => true
  | JsValue.negInf => true
  | _ => false

/-- `typeof v === "string"`. -/
def typeofString (v : JsValue) : Bool :=
  match v with
  | JsValue.str _ => true
  | _ => false

/-- `isNaN(v)` for values that already have `typeof === "number"`. -/
def jsIsNaN (v : JsValue) : Bool :=
  match v with
  | JsValue.nan => true
  | _ => false

/-- `isFinite(v)` for values that already have `typeof === "number"`. -/
def jsIsFinite (v : JsValue) : Bool :=
  match v with
  | JsValue.num _ => true
  | _ => false

/-- `v < 0` for values already known to be finite numbers. -/
def jsNegative (v : JsValue) : Bool :=
  match v with
  | JsValue.num q => q < 0
  | _ => false

/-- Nodes are strings or numbers in the source (`type Node = string | number`);
the raw value type is used so that the ill-typed inputs the validator guards
against are also representable. -/
abbrev Node := JsValue

/-- A node that satisfies the specification's data model: a text label or a
finite number.  (The source's `isValidNode` is weaker: it accepts `NaN` and
`±Infinity` because they have `typeof === "number"`.) -/
def specNode (n : Node) : Prop :=
  (∃ s, n = JsValue.str s) ∨ ∃ q, n = JsValue.num q

/-- `types.ts` / `isValidNode`:
`typeof node === "string" || typeof node === "number"`. -/
def isValidNode (node : Node) : Bool :=
  typeofString node || typeofNumber node

/-- `types.ts` / `isValidWeight`:
`typeof weight === "number" && !isNaN(weight) && isFinite(weight) && weight >= 0`. -/
def isValidWeight (weight : JsValue) : Bool :=
  typeofNumber weight && !jsIsNaN weight && jsIsFinite weight && !jsNegative weight

/-- A raw edge as supplied to `buildGraph` before validation; every field may
be an arbitrary JavaScript value. -/
structure RawEdge where
  «from» : JsValue
  «to» : JsValue
  weight : JsValue
deriving DecidableEq

/-- `GraphError` from `types.ts`. -/
inductive GraphError where
  | EmptyGraph
  | InvalidGraph (reason : String)
deriving DecidableEq

/-- `PathError` from `types.ts`. -/
inductive PathError where
  | NodeNotFound (node : Node)
  | NoPath («from» «to» : Node)
deriving DecidableEq

/-- `graph-validator.ts` / `validateEdges`: scans edges in input order and
reports the first violation (node type check first, then the weight checks). -/
def validateEdges : List RawEdge → Except GraphError Unit
  | [] => Except.ok ()
  | edge :: rest =>
    if ¬ (isValidNode edge.«from» && isValidNode edge.«to») then
      Except.error (GraphError.InvalidGraph "Invalid node type")
    else if ¬ typeofNumber edge.weight || jsIsNaN edge.weight || ¬ jsIsFinite edge.weight then
      Except.error (GraphError.InvalidGraph "Invalid weight: NaN or Infinity")
    else if jsNegative edge.weight then
      Except.error (GraphError.InvalidGraph "Invalid weight: negative value")
    else validateEdges rest

/-- A validated edge: after `validateEdges` every weight is a finite
JavaScript number, modelled exactly as a rational. -/
structure Edge where
  «from» : Node
  «to» : Node
  weight : ℚ
deriving DecidableEq

/-- JavaScript numbers used as distances: a finite rational or `Infinity`. -/
abbrev JsDist := WithTop ℚ

/-- Insertion-ordered association-list model of a JavaScript `Map`. -/
abbrev AssocMap (β : Type) := List (Node × β)

/-- `Map.get`. -/
def assocGet {β : Type} : AssocMap β → Node → Option β
  | [], _ => none
  | (k', v) :: rest, k => if k' = k then some v else assocGet rest k

/-- `Map.has`. -/
def assocHas {β : Type} (m : AssocMap β) (k : Node) : Bool :=
  (assocGet m k).isSome

/-- `Map.set`: updates an existing key in place (keeping its position in
iteration order) or appends a new key at the end. -/
def assocSet {β : Type} : AssocMap β → Node → β → AssocMap β
  | [], k, v => [(k, v)]
  | (k', v') :: rest, k, v =>
    if k' = k then (k, v) :: rest else (k', v') :: assocSet rest k v

/-- The keys of the map in iteration order. -/
def mapKeys {β : Type} (m : AssocMap β) : List Node :=
  m.map Prod.fst

/-- The graph: a `Map` from nodes to their outgoing edge lists
(`type Graph = Map<Node, Edge[]>`). -/
abbrev Graph := AssocMap (List Edge)

/-- `Set.add` on the insertion-ordered list model of a JavaScript `Set`:
keeps the first occurrence. -/
def jsSetAdd (l : List Node) (x : Node) : List Node :=
  if x ∈ l then l else l ++ [x]

/-- `graph-builder.ts` / `buildAdjacencyList`, body of the loop for one edge:
ensure the source key exists, push the edge onto its list, then ensure the
destination key exists. -/
def addEdgeToGraph (graph : Graph) (edge : Edge) : Graph :=
  let g1 := if assocHas graph edge.«from» then graph else assocSet graph edge.«from» []
  let g2 := assocSet g1 edge.«from» ((assocGet g1 edge.«from»).getD [] ++ [edge])
  if assocHas g2 edge.«to» then g2 else assocSet g2 edge.«to» []

/-- `graph-builder.ts` / `buildAdjacencyList`. -/
def buildAdjacencyList (edges : List Edge) : Graph :=
  edges.foldl addEdgeToGraph []

/-- `validateEdges` specialized to post-parse edges whose weights are genuine
finite numbers (represented as rationals).  On such edges
`typeof weight === "number"` always holds and `isNaN`/`!isFinite` are always
false, so only the node checks and the negative-weight check remain. -/
def validateEdgesQ : List Edge → Except GraphError Unit
  | [] => Except.ok ()
  | edge :: rest =>
    if ¬ (isValidNode edge.«from» && isValidNode edge.«to») then
      Except.error (GraphError.InvalidGraph "Invalid node type")
    else if edge.weight < 0 then
      Except.error (GraphError.InvalidGraph "Invalid weight: negative value")
    else validateEdgesQ rest

/-- `graph-builder.ts` / `buildGraph` (on post-parse edges): empty-input check,
then validation, then adjacency-list construction. -/
def buildGraph (edges : List Edge) : Except GraphError Graph :=
  if edges.length = 0 then Except.error GraphError.EmptyGraph
  else
    match validateEdgesQ edges with
    | Except.error e => Except.error e
    | Except.ok _ => Except.ok (buildAdjacencyList edges)

/-- The raw graph built from unvalidated edges, used to state facts about
`buildGraph` on raw inputs. -/
abbrev RawGraph := List (JsValue × List RawEdge)

/-- `assocGet` for raw graphs. -/
def assocGetRaw : RawGraph → JsValue → Option (List RawEdge)
  | [], _ => none
  | (k', v) :: rest, k => if k' = k then some v else assocGetRaw rest k

/-- `assocSet` for raw graphs. -/
def assocSetRaw : RawGraph → JsValue → List RawEdge → RawGraph
  | [], k, v => [(k, v)]
  | (k', v') :: rest, k, v =>
    if k' = k then (k, v) :: rest else (k', v') :: assocSetRaw rest k v

/-- `buildAdjacencyList` on raw edges (identical structure). -/
def addRawEdgeToGraph (graph : RawGraph) (edge : RawEdge) : RawGraph :=
  let g1 := if (assocGetRaw graph edge.«from»).isSome then graph
            else assocSetRaw graph edge.«from» []
  let g2 := assocSetRaw g1 edge.«from» ((assocGetRaw g1 edge.«from»).getD [] ++ [edge])
  if (assocGetRaw g2 edge.«to»).isSome then g2 else assocSetRaw g2 edge.«to» []

/-- `graph-builder.ts` / `buildGraph` on raw edges. -/
def buildGraphRaw (edges : List RawEdge) : Except GraphError RawGraph :=
  if edges.length = 0 then Except.error GraphError.EmptyGraph
  else
    match validateEdges edges with
    | Except.error e => Except.error e
    | Except.ok _ => Except.ok (edges.foldl addRawEdgeToGraph [])

/-! ## Priority queue (`priority-queue.ts`) -/

/-- A queue entry (`PriorityQueueItem<T>`: `{item, priority}`); priorities are
JavaScript numbers. -/
structure PQItem (α : Type) where
  item : α
  priority : JsDist
deriving DecidableEq

/-- `PriorityQueueState<T>`. -/
structure PriorityQueueState (α : Type) where
  items : List (PQItem α)
deriving DecidableEq

/-- `createPriorityQueue`. -/
def createPriorityQueue {α : Type} : PriorityQueueState α := ⟨[]⟩

/-- Stable insertion of one item into a list sorted ascending by priority:
the new item goes after every item of smaller-or-equal priority. -/
def insertByPriority {α : Type} (x : PQItem α) : List (PQItem α) → List (PQItem α)
  | [] => [x]
  | y :: ys =>
    if y.priority ≤ x.priority then y :: insertByPriority x ys else x :: y :: ys

/-- Stable sort ascending by priority, modelling
`newItems.sort((a, b) => a.priority - b.priority)` (JavaScript's sort is
stable and the comparator orders ascending by priority). -/
def sortByPriority {α : Type} : List (PQItem α) → List (PQItem α)
  | [] => []
  | y :: ys => insertByPriority y (sortByPriority ys)

/-- `enqueuePriorityQueue`: append the new entry, then re-sort (stably)
ascending by priority. -/
def enqueuePriorityQueue {α : Type} (queue : PriorityQueueState α) (item : α)
    (priority : JsDist) : PriorityQueueState α :=
  ⟨sortByPriority (queue.items ++ [⟨item, priority⟩])⟩

/-- `dequeuePriorityQueue`: take the first (minimum-priority) entry; on an
empty queue the item is `undefined` (modelled as `none`). -/
def dequeuePriorityQueue {α : Type} (queue : PriorityQueueState α) :
    Option α × PriorityQueueState α :=
  match queue.items with
  | [] => (none, queue)
  | first :: rest => (some first.item, ⟨rest⟩)

/-- `isPriorityQueueEmpty`. -/
def isPriorityQueueEmpty {α : Type} (queue : PriorityQueueState α) : Bool :=
  queue.items.length = 0

/-! ## Path engine (`path-finder.ts`) -/

/-- The `distances` map: `Map<Node, number>` (values may be `Infinity`). -/
abbrev DistMap := Node → Option JsDist

/-- The `previous` map: `Map<Node, Node | null>`. -/
abbrev PrevMap := Node → Option (Option Node)

/-- Pointwise `Map.set` for function-represented maps. -/
def fset {β : Type} (m : Node → Option β) (k : Node) (v : β) : Node → Option β :=
  fun n => if n = k then some v else m n

/-- `DijkstraResult` from `path-finder.ts`. -/
structure DijkstraResult where
  distances : DistMap
  previous : PrevMap

/-- The full loop state of `executeDijkstraInternal`: the two result maps plus
the `visited` set (a JavaScript `Set`, insertion-ordered) and the work queue. -/
structure DijkstraState where
  distances : DistMap
  previous : PrevMap
  visited : List Node
  queue : PriorityQueueState Node

/-- Initialization of `executeDijkstraInternal`: every graph key gets distance
`node === start ? 0 : Infinity` (note JavaScript `===`, which is never true
for `NaN`) and predecessor `null`; then every edge destination not yet present
gets distance `Infinity` and predecessor `null`. -/
def initKeyStep (start : Node) (m : DistMap × PrevMap) (p : Node × List Edge) :
    DistMap × PrevMap :=
  (fset m.1 p.1 (if strictEq p.1 start then (0 : JsDist) else ⊤), fset m.2 p.1 none)

/-- Body of the second initialization loop: give an edge destination distance
`Infinity` and predecessor `null` unless it already has an entry. -/
def initDestStep (m : DistMap × PrevMap) (e : Edge) : DistMap × PrevMap :=
  if (m.1 e.«to»).isSome then m else (fset m.1 e.«to» ⊤, fset m.2 e.«to» none)

def initMaps (graph : Graph) (start : Node) : DistMap × PrevMap :=
  let m1 := graph.foldl (initKeyStep start) (fun _ => none, fun _ => none)
  graph.foldl (fun m p => p.2.foldl initDestStep m) m1

/-- One relaxation step (the body of the `for (const edge of neighbors)` loop):
skip already-visited destinations; otherwise compare
`currentDistance + edge.weight` against the recorded distance and on strict
improvement update distance and predecessor and enqueue the destination. -/
def relaxEdge (visited : List Node) (current : Node) (currentDistance : JsDist)
    (s : DijkstraState) (edge : Edge) : DijkstraState :=
  if edge.«to» ∈ visited then s
  else
    let newDistance := currentDistance + (edge.weight : JsDist)
    let existingDistance := (s.distances edge.«to»).getD ⊤
    if newDistance < existingDistance then
      { s with
        distances := fset s.distances edge.«to» newDistance,
        previous := fset s.previous edge.«to» (some current),
        queue := enqueuePriorityQueue s.queue edge.«to» newDistance }
    else s

/-- The `while (!isPriorityQueueEmpty(queue))` loop of
`executeDijkstraInternal`.  The source's loop has no fuel; `fuel` is an upper
bound on the number of iterations, and `dijkstraFuel` below is proven
sufficient (`dijkstraRun_queue_empty`), so the `0` case never fires for the
fuel the engine passes.  Note the guard `if (!current || visited.has(current))
continue`: `!current` is a JavaScript falsiness test, so besides `undefined`
it also skips the nodes `""`, `0` and `NaN`. -/
def dijkstraLoop (graph : Graph) : ℕ → DijkstraState → DijkstraState
  | 0, s => s
  | fuel + 1, s =>
    if isPriorityQueueEmpty s.queue then s
    else
      let dq := dequeuePriorityQueue s.queue
      let s1 : DijkstraState := { s with queue := dq.2 }
      match dq.1 with
      | none => dijkstraLoop graph fuel s1
      | some current =>
        if jsFalsy current || current ∈ s1.visited then dijkstraLoop graph fuel s1
        else
          let s2 : DijkstraState := { s1 with visited := s1.visited ++ [current] }
          let currentDistance := (s2.distances current).getD ⊤
          let neighbors := (assocGet graph current).getD []
          let s3 := neighbors.foldl (relaxEdge s2.visited current currentDistance) s2
          dijkstraLoop graph fuel s3

/-- `graph-analyzer.ts` / `extractAllNodes`: the graph's keys followed by all
edge destinations, collected into a `Set` (first occurrence kept).  Also used
below to size the loop fuel. -/
def extractAllNodes (graph : Graph) : List Node :=
  let withKeys := graph.foldl (fun acc p => jsSetAdd acc p.1) []
  graph.foldl (fun acc p => p.2.foldl (fun acc e => jsSetAdd acc e.«to») acc) withKeys

/-- `graph-analyzer.ts` / `calculateEdgeCount`: sum of all outgoing-list
lengths. -/
def calculateEdgeCount (graph : Graph) : ℕ :=
  graph.foldl (fun n p => n + p.2.length) 0

/-- Fuel sufficient for the Dijkstra work-queue loop: each iteration removes
one queue entry, and at most `1 + edgeCount` entries are ever enqueued per
visited node (plus the seed). -/
def dijkstraFuel (graph : Graph) : ℕ :=
  (1 + (extractAllNodes graph).length) * (1 + calculateEdgeCount graph) + 1

/-- The initial state of `executeDijkstraInternal`: initialized maps, no
visited nodes, and the queue seeded with `(start, 0)`. -/
def initState (graph : Graph) (start : Node) : DijkstraState :=
  { distances := (initMaps graph start).1,
    previous := (initMaps graph start).2,
    visited := [],
    queue := enqueuePriorityQueue createPriorityQueue start 0 }

/-- `executeDijkstraInternal`, with the loop state exposed. -/
def dijkstraRun (graph : Graph) (start : Node) : DijkstraState :=
  dijkstraLoop graph (dijkstraFuel graph) (initState graph start)

/-- `path-finder.ts` / `executeDijkstraInternal`: returns the `distances` and
`previous` maps. -/
def executeDijkstraInternal (graph : Graph) (start : Node) : DijkstraResult :=
  { distances := (dijkstraRun graph start).distances,
    previous := (dijkstraRun graph start).previous }

/-- `ShortestPath` from `types.ts`: the reconstructed node sequence and its
total distance (a JavaScript number). -/
structure ShortestPath where
  path : List Node
  distance : JsDist
deriving DecidableEq

/-- The `while (current !== null)` walk of `reconstructPathInternal`:
`path.unshift(current); current = previous.get(current) ?? null`.  `fuel`
bounds the number of iterations; the fuel passed by `findPaths` is proven
sufficient, so the `0` case never fires there. -/
def walkLoop (previous : PrevMap) : ℕ → Option Node → List Node → List Node
  | 0, some _, path => path
  | _, none, path => path
  | fuel + 1, some current, path =>
    walkLoop previous fuel ((previous current).getD none) (current :: path)

/-- `path-finder.ts` / `reconstructPathInternal`: fail with `NodeNotFound` if
the target has no distance entry or its distance is `Infinity`; otherwise walk
the predecessor links backwards from the target. -/
def reconstructPathInternal (fuel : ℕ) (previous : PrevMap) (distances : DistMap)
    (target : Node) : Except PathError ShortestPath :=
  if ¬ (distances target).isSome then Except.error (PathError.NodeNotFound target)
  else
    let distance := (distances target).getD ⊤
    if distance = ⊤ then Except.error (PathError.NodeNotFound target)
    else Except.ok { path := walkLoop previous fuel (some target) [], distance := distance }

/-- Fuel sufficient for the predecessor walk: the walk visits the target and
then strictly earlier-visited nodes, so it is no longer than the node count
plus two. -/
def walkFuel (graph : Graph) : ℕ :=
  (extractAllNodes graph).length + 2

/-- `path-finder.ts` / `findPaths`: empty-graph and missing-start early
returns, then Dijkstra, then path reconstruction, disambiguating the
reconstruction's `NodeNotFound` into `NodeNotFound` (target unknown) or
`NoPath` (target known but at infinite distance). -/
def findPaths (graph : Graph) (start target : Node) : Except PathError ShortestPath :=
  if graph.length = 0 then Except.error (PathError.NodeNotFound start)
  else if ¬ assocHas graph start then Except.error (PathError.NodeNotFound start)
  else
    let r := executeDijkstraInternal graph start
    match reconstructPathInternal (walkFuel graph) r.previous r.distances target with
    | Except.error e =>
      match e with
      | PathError.NodeNotFound _ =>
        if (r.distances target).isSome then Except.error (PathError.NoPath start target)
        else Except.error (PathError.NodeNotFound target)
      | _ => Except.error e
    | Except.ok v => Except.ok v

/-! ## Analyzer (`graph-analyzer.ts`) -/

/-- `GraphAnalysis` from `types.ts`. -/
structure GraphAnalysis where
  nodeCount : ℕ
  edgeCount : ℕ
  isConnected : Bool
  components : List (List Node)
  density : ℚ
deriving DecidableEq

/-- `graph-analyzer.ts` / `calculateDensity`:
`0` for at most one node, else `edgeCount / (nodeCount * (nodeCount - 1))`
(exact rational division). -/
def calculateDensity (nodeCount edgeCount : ℕ) : ℚ :=
  if nodeCount ≤ 1 then 0
  else (edgeCount : ℚ) / ((nodeCount : ℚ) * ((nodeCount : ℚ) - 1))

/-- `graph-analyzer.ts` / `addDirectAdjacentNodes`: the destinations of the
current node's outgoing edges that are not yet visited, in edge order
(duplicates possible; pushed onto the stack). -/
def addDirectAdjacentNodes (graph : Graph) (current : Node) (visited : List Node) :
    List Node :=
  (((assocGet graph current).getD []).filter
    (fun e => e.«to» ∉ visited)).map (fun e => e.«to»)

/-- `graph-analyzer.ts` / `addReverseAdjacentNodes`: for every map entry
`(node, nodeEdges)` and every edge with `edge.to === current` (JavaScript
strict equality) whose owner is unvisited, push the owner (once per matching
edge). -/
def addReverseAdjacentNodes (graph : Graph) (current : Node) (visited : List Node) :
    List Node :=
  (graph.map
    (fun p => (p.2.filter
      (fun e => strictEq e.«to» current && p.1 ∉ visited)).map (fun _ => p.1))).flatten

/-- `graph-analyzer.ts` / `addAdjacentNodes`: direct then reverse neighbors. -/
def addAdjacentNodes (graph : Graph) (current : Node) (visited : List Node) :
    List Node :=
  addDirectAdjacentNodes graph current visited ++ addReverseAdjacentNodes graph current visited

/-- The `while (stack.length > 0)` loop of `exploreComponent`.  The JavaScript
array's `push`/`pop` operate on its end, so the stack top is the last list
element.  `fuel` bounds the iteration count; `exploreFuel` below is proven
sufficient, so the `0` case never fires for the fuel the analyzer passes.
Returns the updated visited set together with the collected component. -/
def exploreLoop (graph : Graph) : ℕ → List Node → List Node → List Node →
    List Node × List Node
  | 0, visited, component, _ => (visited, component)
  | fuel + 1, visited, component, stack =>
    if h : stack = [] then (visited, component)
    else
      let current := stack.getLast h
      let stack' := stack.dropLast
      if current ∈ visited then exploreLoop graph fuel visited component stack'
      else
        let visited' := visited ++ [current]
        let component' := component ++ [current]
        exploreLoop graph fuel visited' component'
          (stack' ++ addAdjacentNodes graph current visited')

/-- Fuel sufficient for `exploreLoop`: each iteration pops one stack entry and
a visit pushes at most `2 * edgeCount` new ones. -/
def exploreFuel (graph : Graph) : ℕ :=
  (extractAllNodes graph).length * (1 + 2 * calculateEdgeCount graph) + 2

/-- `graph-analyzer.ts` / `exploreComponent` (the source mutates the shared
`visited` set; here the updated set is returned alongside the component). -/
def exploreComponent (graph : Graph) (startNode : Node) (visited : List Node) :
    List Node × List Node :=
  exploreLoop graph (exploreFuel graph) visited [] [startNode]

/-- `graph-analyzer.ts` / `findConnectedComponents`: explore from each not-yet
visited node of `allNodes` in order, collecting one component per start. -/
def findConnectedComponents (graph : Graph) (allNodes : List Node) :
    List (List Node) :=
  (allNodes.foldl
    (fun (acc : List Node × List (List Node)) startNode =>
      if startNode ∈ acc.1 then acc
      else
        let r := exploreComponent graph startNode acc.1
        (r.1, acc.2 ++ [r.2]))
    ([], [])).2

/-- `graph-analyzer.ts` / `analyzeGraph`. -/
def analyzeGraph (graph : Graph) : Except GraphError GraphAnalysis :=
  if graph.length = 0 then Except.error GraphError.EmptyGraph
  else
    let allNodes := extractAllNodes graph
    let nodeCount := allNodes.length
    let edgeCount := calculateEdgeCount graph
    let components := findConnectedComponents graph allNodes
    let isConnected : Bool := components.length ≤ 1
    let density := calculateDensity nodeCount edgeCount
    Except.ok
      { nodeCount := nodeCount, edgeCount := edgeCount, isConnected := isConnected,
        components := components, density := density }

/-! ## Association-map lemmas -/

theorem assocGet_set_self {β : Type} (m : AssocMap β) (k : Node) (v : β) :
    assocGet (assocSet m k v) k = some v := by
  induction m with
  | nil => simp [assocSet, assocGet]
  | cons p rest ih =>
    obtain ⟨k', v'⟩ := p
    by_cases h : k' = k
    · subst h
      simp [assocSet, assocGet]
    · simp [assocSet, assocGet, h, ih]

theorem assocGet_set_ne {β : Type} (m : AssocMap β) (k k' : Node) (v : β)
    (h : k' ≠ k) : assocGet (assocSet m k v) k' = assocGet m k' :=
  by
  induction m with
  | nil => simp [assocSet, assocGet, Ne.symm h]
  | cons p rest ih =>
    obtain ⟨k0, v0⟩ := p
    by_cases h0 : k0 = k
    · subst h0
      simp [assocSet, assocGet, Ne.symm h]
    · simp only [assocSet, if_neg h0]
      by_cases h1 : k0 = k'
      · simp [assocGet, h1]
      · simp [assocGet, h1, ih]

theorem assocGet_isSome_iff_mem_mapKeys {β : Type} (m : AssocMap β) (k : Node) :
    (assocGet m k).isSome ↔ k ∈ mapKeys m := by
  induction m with
  | nil => simp [assocGet, mapKeys]
  | cons p rest ih =>
    obtain ⟨k', v'⟩ := p
    by_cases h : k' = k
    · subst h
      simp [assocGet, mapKeys]
    · simp [assocGet, mapKeys, h, ih, Ne.symm h]

theorem mapKeys_set_of_mem {β : Type} (m : AssocMap β) (k : Node) (v : β)
    (h : k ∈ mapKeys m) : mapKeys (assocSet m k v) = mapKeys m := by
  induction m with
  | nil => simp [mapKeys] at h
  | cons p rest ih =>
    obtain ⟨k', v'⟩ := p
    by_cases h0 : k' = k
    · subst h0
      simp [assocSet, mapKeys]
    · have hmem : k ∈ mapKeys rest := by
        simp only [mapKeys, List.map_cons, List.mem_cons] at h
        rcases h with h | h
        · exact absurd h.symm h0
        · exact h
      simp only [assocSet, if_neg h0, mapKeys, List.map_cons]
      exact congrArg (List.cons k') (ih hmem)

theorem mapKeys_set_of_not_mem {β : Type} (m : AssocMap β) (k : Node) (v : β)
    (h : k ∉ mapKeys m) : mapKeys (assocSet m k v) = mapKeys m ++ [k] := by
  induction m with
  | nil => simp [assocSet, mapKeys]
  | cons p rest ih =>
    obtain ⟨k', v'⟩ := p
    simp only [mapKeys, List.map_cons, List.mem_cons] at h
    push_neg at h
    show mapKeys (if k' = k then (k, v) :: rest else (k', v') :: assocSet rest k v) = _
    rw [if_neg (Ne.symm h.1)]
    show k' :: mapKeys (assocSet rest k v) = (k' :: mapKeys rest) ++ [k]
    rw [ih h.2, List.cons_append]

theorem assocHas_iff_mem_mapKeys {β : Type} (m : AssocMap β) (k : Node) :
    assocHas m k = true ↔ k ∈ mapKeys m := by
  simp [assocHas, assocGet_isSome_iff_mem_mapKeys]

/-! ## Graph builder correctness (`buildAdjacencyList` / `buildGraph`) -/

/-- The invariant tying the partially built adjacency map to the prefix of
edges already folded in. -/
structure BuildInv (pre : List Edge) (g : Graph) : Prop where
  nodup : (mapKeys g).Nodup
  keys_iff : ∀ k, k ∈ mapKeys g ↔ ∃ e ∈ pre, e.«from» = k ∨ e.«to» = k
  get_eq : ∀ k v, assocGet g k = some v → v = pre.filter (fun e => e.«from» = k)

theorem buildInv_nil : BuildInv [] [] := by
  refine ⟨List.nodup_nil, ?_, ?_⟩
  · simp [mapKeys]
  · intro k v h
    simp [assocGet] at h

theorem buildInv_step (pre : List Edge) (g : Graph) (e : Edge)
    (h : BuildInv pre g) : BuildInv (pre ++ [e]) (addEdgeToGraph g e) := by
  classical
  -- the value stored at a key of the intermediate map `g1`
  set g1 := if assocHas g e.«from» then g else assocSet g e.«from» [] with hg1
  have hg1_get_from : assocGet g1 e.«from» = some (pre.filter (fun x => x.«from» = e.«from»)) := by
    by_cases hh : assocHas g e.«from»
    · rw [hg1, if_pos hh]
      rcases Option.isSome_iff_exists.mp (by simpa [assocHas] using hh) with ⟨v, hv⟩
      rw [hv, h.get_eq _ _ hv]
    · rw [hg1, if_neg hh]
      rw [assocGet_set_self]
      have : e.«from» ∉ mapKeys g := by
        intro hmem
        exact hh ((assocHas_iff_mem_mapKeys g e.«from»).mpr hmem)
      have hfilter : pre.filter (fun x => x.«from» = e.«from») = [] := by
        rw [List.filter_eq_nil_iff]
        intro a ha hcontra
        exact this ((h.keys_iff e.«from»).mpr ⟨a, ha, Or.inl (by simpa using hcontra)⟩)
      rw [hfilter]
  have hg1_get_ne : ∀ k, k ≠ e.«from» → assocGet g1 k = assocGet g k := by
    intro k hk
    by_cases hh : assocHas g e.«from»
    · rw [hg1, if_pos hh]
    · rw [hg1, if_neg hh, assocGet_set_ne _ _ _ _ hk]
  have hg1_keys : ∀ k, k ∈ mapKeys g1 ↔ k ∈ mapKeys g ∨ k = e.«from» := by
    intro k
    by_cases hh : assocHas g e.«from»
    · rw [hg1, if_pos hh]
      constructor
      · exact fun hk => Or.inl hk
      · rintro (hk | hk)
        · exact hk
        · subst hk
          exact (assocHas_iff_mem_mapKeys g _).mp hh
    · rw [hg1, if_neg hh,
        mapKeys_set_of_not_mem _ _ _ (fun hm => hh ((assocHas_iff_mem_mapKeys g _).mpr hm))]
      simp
  have hg1_nodup : (mapKeys g1).Nodup := by
    by_cases hh : assocHas g e.«from»
    · rw [hg1, if_pos hh]; exact h.nodup
    · rw [hg1, if_neg hh,
        mapKeys_set_of_not_mem _ _ _ (fun hm => hh ((assocHas_iff_mem_mapKeys g _).mpr hm))]
      exact List.Nodup.append h.nodup (List.nodup_singleton _)
        (by
          intro a ha hb
          simp only [List.mem_singleton] at hb
          subst hb
          exact hh ((assocHas_iff_mem_mapKeys g _).mpr ha))
  -- `g2` pushes the edge onto the source's list
  set g2 := assocSet g1 e.«from» ((assocGet g1 e.«from»).getD [] ++ [e]) with hg2
  have hg2_get_from : assocGet g2 e.«from» =
      some ((pre ++ [e]).filter (fun x => x.«from» = e.«from»)) := by
    rw [hg2, assocGet_set_self, hg1_get_from]
    simp
  have hg2_get_ne : ∀ k, k ≠ e.«from» →
      assocGet g2 k = assocGet g k := by
    intro k hk
    rw [hg2, assocGet_set_ne _ _ _ _ hk, hg1_get_ne k hk]
  have hg1_from_mem : e.«from» ∈ mapKeys g1 := (hg1_keys _).mpr (Or.inr rfl)
  have hg2_keys : ∀ k, k ∈ mapKeys g2 ↔ k ∈ mapKeys g ∨ k = e.«from» := by
    intro k
    rw [hg2, mapKeys_set_of_mem _ _ _ hg1_from_mem]
    exact hg1_keys k
  have hg2_nodup : (mapKeys g2).Nodup := by
    rw [hg2, mapKeys_set_of_mem _ _ _ hg1_from_mem]
    exact hg1_nodup
  -- `g3` ensures the destination key exists
  show BuildInv (pre ++ [e])
    (if assocHas g2 e.«to» then g2 else assocSet g2 e.«to» [])
  by_cases hto : assocHas g2 e.«to»
  · rw [if_pos hto]
    refine ⟨hg2_nodup, ?_, ?_⟩
    · intro k
      rw [hg2_keys k, h.keys_iff k]
      constructor
      · rintro (⟨a, ha, hk⟩ | hk)
        · exact ⟨a, List.mem_append_left _ ha, hk⟩
        · exact ⟨e, List.mem_append_right _ (List.mem_singleton_self e), Or.inl hk.symm⟩
      · rintro ⟨a, ha, hk⟩
        rcases List.mem_append.mp ha with ha | ha
        · exact Or.inl ⟨a, ha, hk⟩
        · simp only [List.mem_singleton] at ha
          subst ha
          rcases hk with hk | hk
          · exact Or.inr hk.symm
          · -- `e.to` is a key of `g2`, so it was a key of `g` or equals `e.from`
            have := (hg2_keys k).mp ((assocHas_iff_mem_mapKeys g2 k).mp (hk ▸ hto))
            rcases this with hmem | hmem
            · exact Or.inl ((h.keys_iff k).mp hmem)
            · exact Or.inr hmem
    · intro k v hv
      by_cases hk : k = e.«from»
      · subst hk
        rw [hg2_get_from] at hv
        exact (Option.some_inj.mp hv).symm
      · rw [hg2_get_ne k hk] at hv
        rw [h.get_eq k v hv]
        rw [List.filter_append]
        have hfe : [e].filter (fun x => x.«from» = k) = [] := by
          have hne : ¬ (e.«from» = k) := fun hh => hk hh.symm
          simp [hne]
        rw [hfe, List.append_nil]
  · rw [if_neg hto]
    have hto_not_mem : e.«to» ∉ mapKeys g2 := fun hm =>
      hto ((assocHas_iff_mem_mapKeys g2 _).mpr hm)
    refine ⟨?_, ?_, ?_⟩
    · rw [mapKeys_set_of_not_mem _ _ _ hto_not_mem]
      exact List.Nodup.append hg2_nodup (List.nodup_singleton _)
        (by
          intro a ha hb
          simp only [List.mem_singleton] at hb
          subst hb
          exact hto_not_mem ha)
    · intro k
      rw [mapKeys_set_of_not_mem _ _ _ hto_not_mem]
      simp only [List.mem_append, List.mem_singleton]
      rw [hg2_keys k, h.keys_iff k]
      constructor
      · rintro ((⟨a, ha, hk⟩ | hk) | hk)
        · exact ⟨a, Or.inl ha, hk⟩
        · exact ⟨e, Or.inr rfl, Or.inl hk.symm⟩
        · exact ⟨e, Or.inr rfl, Or.inr hk.symm⟩
      · rintro ⟨a, ha, hk⟩
        rcases ha with ha | ha
        · exact Or.inl (Or.inl ⟨a, ha, hk⟩)
        · subst ha
          rcases hk with hk | hk
          · exact Or.inl (Or.inr hk.symm)
          · exact Or.inr hk.symm
    · intro k v hv
      by_cases hk : k = e.«to»
      · rw [hk] at hv ⊢
        rw [assocGet_set_self] at hv
        have hv' : v = [] := (Option.some_inj.mp hv).symm
        subst hv'
        -- the destination is a fresh key, so no prefix edge leaves it
        have hknotg : e.«to» ∉ mapKeys g := fun hm =>
          hto_not_mem ((hg2_keys _).mpr (Or.inl hm))
        have hkne : e.«to» ≠ e.«from» := fun hh =>
          hto_not_mem ((hg2_keys _).mpr (Or.inr hh))
        rw [List.filter_append]
        have h1 : pre.filter (fun x => x.«from» = e.«to») = [] := by
          rw [List.filter_eq_nil_iff]
          intro a ha hcontra
          exact hknotg ((h.keys_iff _).mpr ⟨a, ha, Or.inl (by simpa using hcontra)⟩)
        have h2 : [e].filter (fun x => x.«from» = e.«to») = [] := by
          have hne : ¬ (e.«from» = e.«to») := fun hh => hkne hh.symm
          simp [hne]
        rw [h1, h2]
        rfl
      · rw [assocGet_set_ne _ _ _ _ hk] at hv
        by_cases hk' : k = e.«from»
        · subst hk'
          rw [hg2_get_from] at hv
          exact (Option.some_inj.mp hv).symm
        · rw [hg2_get_ne k hk'] at hv
          rw [h.get_eq k v hv, List.filter_append]
          have hfe : [e].filter (fun x => x.«from» = k) = [] := by
            have hne : ¬ (e.«from» = k) := fun hh => hk' hh.symm
            simp [hne]
          rw [hfe, List.append_nil]

theorem buildInv_foldl (l : List Edge) :
    ∀ (pre : List Edge) (g : Graph), BuildInv pre g →
      BuildInv (pre ++ l) (l.foldl addEdgeToGraph g) := by
  induction l with
  | nil => intro pre g h; simpa using h
  | cons e rest ih =>
    intro pre g h
    have := ih (pre ++ [e]) (addEdgeToGraph g e) (buildInv_step pre g e h)
    simpa using this

theorem buildAdjacencyList_inv (edges : List Edge) :
    BuildInv edges (buildAdjacencyList edges) := by
  have := buildInv_foldl edges [] [] buildInv_nil
  simpa [buildAdjacencyList] using this

/-! ## Inversion lemmas for the public entry points -/

theorem buildGraph_ok_inv {edges : List Edge} {g : Graph}
    (h : buildGraph edges = Except.ok g) :
    g = buildAdjacencyList edges ∧ edges ≠ [] ∧ validateEdgesQ edges = Except.ok () := by
  unfold buildGraph at h
  by_cases h0 : edges.length = 0
  · rw [if_pos h0] at h
    cases h
  · rw [if_neg h0] at h
    cases hv : validateEdgesQ edges with
    | error e =>
      rw [hv] at h
      cases h
    | ok u =>
      rw [hv] at h
      cases u
      injection h with h
      exact ⟨h.symm, fun hnil => h0 (by simp [hnil]), rfl⟩

/-- In a map with duplicate-free keys, every stored pair is what `assocGet`
returns at its key. -/
theorem assocGet_of_mem_of_nodup {β : Type} :
    ∀ (m : AssocMap β), (mapKeys m).Nodup → ∀ (k : Node) (v : β), (k, v) ∈ m →
      assocGet m k = some v
  | [], _, k, v, hp => by cases hp
  | (k0, v0) :: rest, hm, k, v, hp => by
    rcases List.mem_cons.mp hp with hp | hp
    · cases hp
      simp [assocGet]
    · have hne : k0 ≠ k := by
        intro hh
        have hmem : k ∈ mapKeys rest := List.mem_map.mpr ⟨(k, v), hp, rfl⟩
        simp only [mapKeys, List.map_cons, List.nodup_cons] at hm
        exact hm.1 (hh ▸ hmem)
      have hrest : (mapKeys rest).Nodup := by
        simp only [mapKeys, List.map_cons, List.nodup_cons] at hm
        exact hm.2
      show (if k0 = k then some v0 else assocGet rest k) = some v
      rw [if_neg hne]
      exact assocGet_of_mem_of_nodup rest hrest k v hp

/-- Validation (on rational-weight edges) guarantees non-negative weights. -/
theorem validateEdgesQ_nonneg {edges : List Edge}
    (h : validateEdgesQ edges = Except.ok ()) : ∀ e ∈ edges, 0 ≤ e.weight := by
  induction edges with
  | nil => intro e he; cases he
  | cons a rest ih =>
    intro e he
    unfold validateEdgesQ at h
    by_cases h1 : ¬ (isValidNode a.«from» && isValidNode a.«to»)
    · rw [if_pos h1] at h; cases h
    · rw [if_neg h1] at h
      by_cases h2 : a.weight < 0
      · rw [if_pos h2] at h; cases h
      · rw [if_neg h2] at h
        rcases List.mem_cons.mp he with he | he
        · subst he; exact le_of_not_lt h2
        · exact ih h e he

/-- All adjacency lists of a built graph consist of validated input edges, so
their weights are non-negative. -/
theorem buildGraph_weights_nonneg {edges : List Edge} {g : Graph}
    (h : buildGraph edges = Except.ok g) :
    ∀ p ∈ g, ∀ e ∈ p.2, 0 ≤ e.weight := by
  obtain ⟨hg, _, hv⟩ := buildGraph_ok_inv h
  have hnn := validateEdgesQ_nonneg hv
  have hinv := buildAdjacencyList_inv edges
  rintro ⟨k, es⟩ hp e he
  have hget : assocGet g k = some es := by
    subst hg
    exact assocGet_of_mem_of_nodup _ hinv.nodup k es hp
  have hpv : es = edges.filter (fun x => x.«from» = k) := by
    subst hg
    exact hinv.get_eq _ _ hget
  rw [hpv] at he
  exact hnn e (List.mem_of_mem_filter he)

/-! ## Claim C6 — structure of the built graph -/

/-- C6: for every non-empty edge list that passes validation, `buildGraph`
succeeds and returns a graph whose key set equals the union of all `from` and
`to` endpoints of the input edges, where each key's adjacency list is exactly
the sub-list of input edges leaving that key, in original input order with
duplicates retained, and a node appearing only as a destination maps to the
empty list. -/
theorem C6_buildGraph_structure (edges : List Edge) (hne : edges ≠ [])
    (hv : validateEdgesQ edges = Except.ok ()) :
    ∃ g : Graph, buildGraph edges = Except.ok g ∧
      (∀ k, k ∈ mapKeys g ↔ ∃ e ∈ edges, e.«from» = k ∨ e.«to» = k) ∧
      (∀ k, k ∈ mapKeys g →
        assocGet g k = some (edges.filter (fun e => e.«from» = k))) ∧
      (∀ k, k ∈ mapKeys g → (∀ e ∈ edges, e.«from» ≠ k) →
        assocGet g k = some []) := by
  have hinv := buildAdjacencyList_inv edges
  have hok : buildGraph edges = Except.ok (buildAdjacencyList edges) := by
    unfold buildGraph
    rw [if_neg (fun h0 => hne (List.length_eq_zero.mp h0)), hv]
  refine ⟨buildAdjacencyList edges, hok, fun k => hinv.keys_iff k, ?_, ?_⟩
  · intro k hk
    have hs : (assocGet (buildAdjacencyList edges) k).isSome :=
      (assocGet_isSome_iff_mem_mapKeys _ k).mpr hk
    rcases Option.isSome_iff_exists.mp hs with ⟨v, hv'⟩
    rw [hv', hinv.get_eq k v hv']
  · intro k hk hno
    have hs : (assocGet (buildAdjacencyList edges) k).isSome :=
      (assocGet_isSome_iff_mem_mapKeys _ k).mpr hk
    rcases Option.isSome_iff_exists.mp hs with ⟨v, hv'⟩
    rw [hv', hinv.get_eq k v hv']
    have : edges.filter (fun e => e.«from» = k) = [] := by
      rw [List.filter_eq_nil_iff]
      intro a ha hcontra
      exact hno a ha (by simpa using hcontra)
    rw [this]

/-- Witness for C6 at the concrete validated list `[A→B (weight 1)]`. -/
theorem C6_buildGraph_structure_witness :
    ([⟨JsValue.str "A", JsValue.str "B", (1 : ℚ)⟩] : List Edge) ≠ [] ∧
    validateEdgesQ [⟨JsValue.str "A", JsValue.str "B", (1 : ℚ)⟩] = Except.ok () ∧
    ∃ g : Graph,
      buildGraph [⟨JsValue.str "A", JsValue.str "B", (1 : ℚ)⟩] = Except.ok g ∧
      (∀ k, k ∈ mapKeys g ↔
        ∃ e ∈ [(⟨JsValue.str "A", JsValue.str "B", (1 : ℚ)⟩ : Edge)],
          e.«from» = k ∨ e.«to» = k) ∧
      (∀ k, k ∈ mapKeys g →
        assocGet g k =
          some ([(⟨JsValue.str "A", JsValue.str "B", (1 : ℚ)⟩ : Edge)].filter
            (fun e => e.«from» = k))) ∧
      (∀ k, k ∈ mapKeys g →
        (∀ e ∈ [(⟨JsValue.str "A", JsValue.str "B", (1 : ℚ)⟩ : Edge)], e.«from» ≠ k) →
        assocGet g k = some []) :=
  ⟨by simp, by with_unfolding_all rfl,
    C6_buildGraph_structure _ (by simp) (by with_unfolding_all rfl)⟩

/-! ## Claim C9 — adjacency lists hold only genuinely outgoing edges -/

/-- C9: in every graph returned by `buildGraph`, every edge stored under a key
has that key as its `from` endpoint. -/
theorem C9_lists_only_outgoing (edges : List Edge) (g : Graph)
    (h : buildGraph edges = Except.ok g) :
    ∀ k v, assocGet g k = some v → ∀ e ∈ v, e.«from» = k := by
  obtain ⟨hg, _, _⟩ := buildGraph_ok_inv h
  subst hg
  intro k v hv e he
  have hveq := (buildAdjacencyList_inv edges).get_eq k v hv
  subst hveq
  simpa using List.of_mem_filter he

/-- Witness for C9 at the concrete graph built from `[A→B (weight 1)]`. -/
theorem C9_lists_only_outgoing_witness :
    buildGraph [⟨JsValue.str "A", JsValue.str "B", (1 : ℚ)⟩] =
      Except.ok [(JsValue.str "A", [⟨JsValue.str "A", JsValue.str "B", (1 : ℚ)⟩]),
                 (JsValue.str "B", [])] ∧
    (∀ k v,
      assocGet [(JsValue.str "A", [(⟨JsValue.str "A", JsValue.str "B", (1 : ℚ)⟩ : Edge)]),
                (JsValue.str "B", [])] k = some v → ∀ e ∈ v, e.«from» = k) :=
  ⟨by with_unfolding_all rfl,
    C9_lists_only_outgoing [⟨JsValue.str "A", JsValue.str "B", (1 : ℚ)⟩] _
      (by with_unfolding_all rfl)⟩

/-! ## Claim C4 — the node-type validation failure -/

/-- C4 counterexample: an edge whose source endpoint is `NaN` — not a text
label and not a finite number, so it fails the specification's node
well-formedness predicate — nevertheless passes `validateEdges`, because the
code's `isValidNode` only tests `typeof` and `typeof NaN === "number"`.  The
claimed `InvalidGraph "Invalid node type"` failure does not occur. -/
theorem C4_counterexample :
    validateEdges [⟨JsValue.nan, JsValue.str "A", JsValue.num 1⟩] = Except.ok () ∧
    validateEdges [⟨JsValue.nan, JsValue.str "A", JsValue.num 1⟩] ≠
      Except.error (GraphError.InvalidGraph "Invalid node type") := by
  constructor
  · with_unfolding_all rfl
  · intro hcontra
    have h1 : (Except.ok () : Except GraphError Unit) =
        Except.error (GraphError.InvalidGraph "Invalid node type") :=
      (by with_unfolding_all rfl :
        validateEdges [⟨JsValue.nan, JsValue.str "A", JsValue.num 1⟩] =
          Except.ok ()).symm.trans hcontra
    cases h1

/-- A single edge accepted by `validateEdges` passes every individual check. -/
theorem validateEdges_singleton_ok {e : RawEdge}
    (h : validateEdges [e] = Except.ok ()) :
    ¬ ¬ (isValidNode e.«from» && isValidNode e.«to») ∧
    ¬ (¬ typeofNumber e.weight || jsIsNaN e.weight || ¬ jsIsFinite e.weight) ∧
    ¬ jsNegative e.weight = true := by
  unfold validateEdges at h
  by_cases h1 : ¬ (isValidNode e.«from» && isValidNode e.«to»)
  · rw [if_pos h1] at h; cases h
  · rw [if_neg h1] at h
    by_cases h2 : ¬ typeofNumber e.weight || jsIsNaN e.weight || ¬ jsIsFinite e.weight
    · rw [if_pos h2] at h; cases h
    · rw [if_neg h2] at h
      by_cases h3 : jsNegative e.weight
      · rw [if_pos h3] at h; cases h
      · exact ⟨h1, h2, h3⟩

/-- Scanning past an edge that passes all checks. -/
theorem validateEdges_cons_of_ok {e : RawEdge} (l : List RawEdge)
    (h : validateEdges [e] = Except.ok ()) :
    validateEdges (e :: l) = validateEdges l := by
  obtain ⟨h1, h2, h3⟩ := validateEdges_singleton_ok h
  conv_lhs => rw [validateEdges]
  rw [if_neg h1, if_neg h2, if_neg h3]

/-- C4 (amended): if some edge has an endpoint that fails the code's `typeof`
based node check — it is neither a string nor a number, e.g. `null`,
`undefined`, an object or an array; `NaN` and `±Infinity` count as numbers and
pass — and every earlier edge passes all validation checks, then
`validateEdges` (and `buildGraph` on the same, necessarily non-empty, list)
returns `InvalidGraph "Invalid node type"`, determined by that edge. -/
theorem C4_amended_first_invalid_node (pre : List RawEdge) (bad : RawEdge)
    (rest : List RawEdge)
    (hpre : ∀ e ∈ pre, validateEdges [e] = Except.ok ())
    (hbad : ¬ (isValidNode bad.«from» && isValidNode bad.«to»)) :
    validateEdges (pre ++ bad :: rest) =
      Except.error (GraphError.InvalidGraph "Invalid node type") ∧
    buildGraphRaw (pre ++ bad :: rest) =
      Except.error (GraphError.InvalidGraph "Invalid node type") := by
  have hval : validateEdges (pre ++ bad :: rest) =
      Except.error (GraphError.InvalidGraph "Invalid node type") := by
    induction pre with
    | nil =>
      show validateEdges (bad :: rest) = _
      unfold validateEdges
      rw [if_pos hbad]
    | cons a pre' ih =>
      have ha := hpre a (List.mem_cons_self a pre')
      rw [List.cons_append, validateEdges_cons_of_ok _ ha]
      exact ih (fun e he => hpre e (List.mem_cons_of_mem a he))
  refine ⟨hval, ?_⟩
  unfold buildGraphRaw
  have hlen : ¬ (pre ++ bad :: rest).length = 0 := by simp
  rw [if_neg hlen, hval]

/-- Witness for C4 (amended): a valid edge followed by an edge with a `null`
endpoint yields exactly the node-type error. -/
theorem C4_amended_first_invalid_node_witness :
    (∀ e ∈ [(⟨JsValue.str "X", JsValue.str "Y", JsValue.num 2⟩ : RawEdge)],
      validateEdges [e] = Except.ok ()) ∧
    ¬ (isValidNode (JsValue.nullV) && isValidNode (JsValue.str "A")) ∧
    validateEdges [⟨JsValue.str "X", JsValue.str "Y", JsValue.num 2⟩,
        ⟨JsValue.nullV, JsValue.str "A", JsValue.num 1⟩] =
      Except.error (GraphError.InvalidGraph "Invalid node type") ∧
    buildGraphRaw [⟨JsValue.str "X", JsValue.str "Y", JsValue.num 2⟩,
        ⟨JsValue.nullV, JsValue.str "A", JsValue.num 1⟩] =
      Except.error (GraphError.InvalidGraph "Invalid node type") := by
  refine ⟨?_, by decide, ?_⟩
  · intro e he
    rcases List.mem_singleton.mp he with rfl
    with_unfolding_all rfl
  · have := C4_amended_first_invalid_node
      [⟨JsValue.str "X", JsValue.str "Y", JsValue.num 2⟩]
      ⟨JsValue.nullV, JsValue.str "A", JsValue.num 1⟩ []
      (by
        intro e he
        rcases List.mem_singleton.mp he with rfl
        with_unfolding_all rfl)
      (by decide)
    simpa using this

/-! ## Claim C8 — density formula -/

theorem analyzeGraph_ok_inv {g : Graph} {a : GraphAnalysis}
    (h : analyzeGraph g = Except.ok a) :
    g.length ≠ 0 ∧
    a.nodeCount = (extractAllNodes g).length ∧
    a.edgeCount = calculateEdgeCount g ∧
    a.components = findConnectedComponents g (extractAllNodes g) ∧
    a.isConnected = decide (a.components.length ≤ 1) ∧
    a.density = calculateDensity a.nodeCount a.edgeCount := by
  unfold analyzeGraph at h
  by_cases h0 : g.length = 0
  · rw [if_pos h0] at h
    cases h
  · rw [if_neg h0] at h
    injection h with h
    subst h
    exact ⟨h0, rfl, rfl, rfl, rfl, rfl⟩

theorem calculateEdgeCount_eq_sum (g : Graph) :
    calculateEdgeCount g = (g.map (fun p => p.2.length)).sum := by
  suffices hgen : ∀ (n : ℕ) (l : Graph),
      l.foldl (fun n p => n + p.2.length) n = n + (l.map (fun p => p.2.length)).sum by
    simpa [calculateEdgeCount] using hgen 0 g
  intro n l
  induction l generalizing n with
  | nil => simp
  | cons p rest ih =>
    simp only [List.foldl_cons, List.map_cons, List.sum_cons, ih]
    omega

/-- A two-node graph with three parallel edges: its density exceeds 1. -/
def parallelGraph : Graph :=
  [(JsValue.str "A",
    [⟨JsValue.str "A", JsValue.str "B", (1 : ℚ)⟩,
     ⟨JsValue.str "A", JsValue.str "B", (1 : ℚ)⟩,
     ⟨JsValue.str "A", JsValue.str "B", (1 : ℚ)⟩]),
   (JsValue.str "B", [])]

/-- C8: for every non-empty graph the density reported by `analyzeGraph` is 0
when the node count is at most 1 and otherwise equals
`edgeCount / (nodeCount * (nodeCount - 1))` exactly, where the edge count is
the sum of all adjacency-list lengths; the value is not clamped, and a graph
with enough parallel edges has density greater than 1. -/
theorem C8_density_formula (g : Graph) (a : GraphAnalysis)
    (h : analyzeGraph g = Except.ok a) :
    (a.nodeCount ≤ 1 → a.density = 0) ∧
    (1 < a.nodeCount →
      a.density = (a.edgeCount : ℚ) / ((a.nodeCount : ℚ) * ((a.nodeCount : ℚ) - 1))) ∧
    a.edgeCount = (g.map (fun p => p.2.length)).sum ∧
    (∃ a' : GraphAnalysis, analyzeGraph parallelGraph = Except.ok a' ∧ 1 < a'.density) := by
  obtain ⟨-, -, hec, -, -, hd⟩ := analyzeGraph_ok_inv h
  refine ⟨?_, ?_, ?_, ?_⟩
  · intro hle
    rw [hd, calculateDensity, if_pos hle]
  · intro hlt
    rw [hd, calculateDensity, if_neg (by omega)]
  · rw [hec, calculateEdgeCount_eq_sum]
  · refine ⟨⟨2, 3, true, [[JsValue.str "A", JsValue.str "B"]], 3 / 2⟩, ?_, ?_⟩
    · with_unfolding_all rfl
    · norm_num

/-- Witness for C8 at the disconnected two-edge graph from the specification's
scenario 4 (4 nodes, 2 edges, density 1/6). -/
theorem C8_density_formula_witness :
    analyzeGraph [(JsValue.str "A", [⟨JsValue.str "A", JsValue.str "B", (1 : ℚ)⟩]),
        (JsValue.str "B", []),
        (JsValue.str "C", [⟨JsValue.str "C", JsValue.str "D", (1 : ℚ)⟩]),
        (JsValue.str "D", [])] =
      Except.ok ⟨4, 2, false,
        [[JsValue.str "A", JsValue.str "B"], [JsValue.str "C", JsValue.str "D"]],
        1 / 6⟩ ∧
    ((⟨4, 2, false,
        [[JsValue.str "A", JsValue.str "B"], [JsValue.str "C", JsValue.str "D"]],
        1 / 6⟩ : GraphAnalysis).nodeCount ≤ 1 →
      (⟨4, 2, false,
        [[JsValue.str "A", JsValue.str "B"], [JsValue.str "C", JsValue.str "D"]],
        1 / 6⟩ : GraphAnalysis).density = 0) ∧
    ((1 : ℕ) < 4 → (1 / 6 : ℚ) = (2 : ℚ) / ((4 : ℚ) * ((4 : ℚ) - 1))) := by
  refine ⟨by with_unfolding_all rfl, ?_, ?_⟩
  · have := (C8_density_formula _ _ (by with_unfolding_all rfl :
      analyzeGraph [(JsValue.str "A", [⟨JsValue.str "A", JsValue.str "B", (1 : ℚ)⟩]),
        (JsValue.str "B", []),
        (JsValue.str "C", [⟨JsValue.str "C", JsValue.str "D", (1 : ℚ)⟩]),
        (JsValue.str "D", [])] =
      Except.ok ⟨4, 2, false,
        [[JsValue.str "A", JsValue.str "B"], [JsValue.str "C", JsValue.str "D"]],
        1 / 6⟩)).1
    exact this
  · norm_num

/-! ## Directed paths and reachability -/

/-- `PathFrom g u l w`: `l` is a directed path starting at `u`, each
consecutive pair connected by an edge stored in the earlier node's adjacency
list, and `w` is the sum of the weights of those edges. -/
inductive PathFrom (g : Graph) : Node → List Node → ℚ → Prop where
  | single (n : Node) : PathFrom g n [n] 0
  | cons (u : Node) (e : Edge) (rest : List Node) (w : ℚ) :
      e ∈ (assocGet g u).getD [] → PathFrom g e.«to» rest w →
      PathFrom g u (u :: rest) (e.weight + w)

/-- One directed step: some edge stored under `u` ends at `v`. -/
def dirStep (g : Graph) (u v : Node) : Prop :=
  ∃ e ∈ (assocGet g u).getD [], e.«to» = v

/-- Directed reachability along stored edges. -/
def DirReach (g : Graph) : Node → Node → Prop :=
  Relation.ReflTransGen (dirStep g)

/-! ## Claim C1 — a falsy intermediate node breaks optimality -/

/-- The graph built from `[A→"" (1), ""→B (1), A→B (5)]`. -/
def graphFalsyMid : Graph :=
  [(JsValue.str "A",
    [⟨JsValue.str "A", JsValue.str "", (1 : ℚ)⟩,
     ⟨JsValue.str "A", JsValue.str "B", (5 : ℚ)⟩]),
   (JsValue.str "",
    [⟨JsValue.str "", JsValue.str "B", (1 : ℚ)⟩]),
   (JsValue.str "B", [])]

/-- C1 is violated by the code: on the validated graph
`[A→"" (1), ""→B (1), A→B (5)]` the engine returns distance 5 for `A → B`,
yet the directed path `A → "" → B` has total weight 2.  The cause is the
guard `if (!current || visited.has(current))` in `executeDijkstraInternal`:
`""` is falsy in JavaScript, so the node `""` is dequeued but never visited
and its outgoing edges are never relaxed. -/
theorem C1_falsy_node_breaks_optimality :
    buildGraph [⟨JsValue.str "A", JsValue.str "", (1 : ℚ)⟩,
        ⟨JsValue.str "", JsValue.str "B", (1 : ℚ)⟩,
        ⟨JsValue.str "A", JsValue.str "B", (5 : ℚ)⟩] = Except.ok graphFalsyMid ∧
    findPaths graphFalsyMid (JsValue.str "A") (JsValue.str "B") =
      Except.ok ⟨[JsValue.str "A", JsValue.str "B"], ((5 : ℚ) : JsDist)⟩ ∧
    PathFrom graphFalsyMid (JsValue.str "A")
      [JsValue.str "A", JsValue.str "", JsValue.str "B"] 2 ∧
    ¬ ((5 : ℚ) ≤ 2) := by
  refine ⟨by with_unfolding_all rfl, by with_unfolding_all rfl, ?_, by norm_num⟩
  have hpath : PathFrom graphFalsyMid (JsValue.str "A")
      [JsValue.str "A", JsValue.str "", JsValue.str "B"] (1 + (1 + 0)) := by
    refine PathFrom.cons _ ⟨JsValue.str "A", JsValue.str "", (1 : ℚ)⟩ _ _ ?_ ?_
    · show (⟨JsValue.str "A", JsValue.str "", (1 : ℚ)⟩ : Edge) ∈
        (assocGet graphFalsyMid (JsValue.str "A")).getD []
      rw [show assocGet graphFalsyMid (JsValue.str "A") =
        some [⟨JsValue.str "A", JsValue.str "", (1 : ℚ)⟩,
              ⟨JsValue.str "A", JsValue.str "B", (5 : ℚ)⟩] from by with_unfolding_all rfl]
      exact List.mem_cons_self _ _
    · show PathFrom graphFalsyMid (JsValue.str "") [JsValue.str "", JsValue.str "B"] (1 + 0)
      refine PathFrom.cons _ ⟨JsValue.str "", JsValue.str "B", (1 : ℚ)⟩ _ _ ?_ ?_
      · show (⟨JsValue.str "", JsValue.str "B", (1 : ℚ)⟩ : Edge) ∈
          (assocGet graphFalsyMid (JsValue.str "")).getD []
        rw [show assocGet graphFalsyMid (JsValue.str "") =
          some [⟨JsValue.str "", JsValue.str "B", (1 : ℚ)⟩] from by with_unfolding_all rfl]
        exact List.mem_cons_self _ _
      · exact PathFrom.single _
  have heq : (1 : ℚ) + (1 + 0) = 2 := by norm_num
  exact heq ▸ hpath

/-! ## Claim C2 — a falsy start node makes reachable targets "unreachable" -/

/-- The graph built from the single edge `"" → B (weight 1)`. -/
def graphFalsyStart : Graph :=
  [(JsValue.str "", [⟨JsValue.str "", JsValue.str "B", (1 : ℚ)⟩]),
   (JsValue.str "B", [])]

/-- C2 is violated by the code: on the validated single-edge graph
`"" → B (1)` the start node `""` is a key, `B` is reachable from `""` via a
directed edge, yet `findPaths` reports `NoPath("", B)`.  The falsy-value
guard in the Dijkstra loop skips the dequeued start node `""`, so no edge is
ever relaxed and the target keeps an infinite distance. -/
theorem C2_falsy_start_reports_NoPath :
    buildGraph [⟨JsValue.str "", JsValue.str "B", (1 : ℚ)⟩] =
      Except.ok graphFalsyStart ∧
    (JsValue.str "" : Node) ∈ mapKeys graphFalsyStart ∧
    findPaths graphFalsyStart (JsValue.str "") (JsValue.str "B") =
      Except.error (PathError.NoPath (JsValue.str "") (JsValue.str "B")) ∧
    DirReach graphFalsyStart (JsValue.str "") (JsValue.str "B") := by
  refine ⟨by with_unfolding_all rfl, ?_, by with_unfolding_all rfl, ?_⟩
  · show JsValue.str "" ∈ mapKeys graphFalsyStart
    rw [show mapKeys graphFalsyStart = [JsValue.str "", JsValue.str "B"] from rfl]
    exact List.mem_cons_self _ _
  · refine Relation.ReflTransGen.single ?_
    refine ⟨⟨JsValue.str "", JsValue.str "B", (1 : ℚ)⟩, ?_, rfl⟩
    rw [show assocGet graphFalsyStart (JsValue.str "") =
      some [⟨JsValue.str "", JsValue.str "B", (1 : ℚ)⟩] from by with_unfolding_all rfl]
    exact List.mem_cons_self _ _

/-! ## Auxiliary notions for the Dijkstra proofs -/

/-- A node known to the graph: one of its keys or some edge's destination.
These are exactly the nodes the Dijkstra initialization gives entries to. -/
def knownNode (g : Graph) (n : Node) : Prop :=
  n ∈ mapKeys g ∨ ∃ p ∈ g, ∃ e ∈ p.2, e.«to» = n

/-- The weights of all stored edges are non-negative (the specification's
`Weight` data model). -/
def NonnegG (g : Graph) : Prop :=
  ∀ p ∈ g, ∀ e ∈ p.2, 0 ≤ e.weight

theorem assocGet_mem {β : Type} {m : AssocMap β} {k : Node} {v : β}
    (h : assocGet m k = some v) : (k, v) ∈ m := by
  induction m with
  | nil => cases h
  | cons p rest ih =>
    obtain ⟨k0, v0⟩ := p
    by_cases h0 : k0 = k
    · subst h0
      simp only [assocGet, if_pos rfl] at h
      cases h
      exact List.mem_cons_self _ _
    · simp only [assocGet, if_neg h0] at h
      exact List.mem_cons_of_mem _ (ih h)

/-- Position of the first occurrence of an element in a list. -/
def listIdx : List Node → Node → ℕ
  | [], _ => 0
  | y :: ys, x => if y = x then 0 else listIdx ys x + 1

theorem listIdx_lt_length {l : List Node} {x : Node} (h : x ∈ l) :
    listIdx l x < l.length := by
  induction l with
  | nil => cases h
  | cons y ys ih =>
    by_cases h0 : y = x
    · simp [listIdx, h0]
    · have hx : x ∈ ys := by
        rcases List.mem_cons.mp h with h1 | h1
        · exact absurd h1.symm h0
        · exact h1
      simp only [listIdx, if_neg h0, List.length_cons]
      exact Nat.succ_lt_succ (ih hx)

theorem listIdx_append_of_mem {l : List Node} {x : Node} (l2 : List Node)
    (h : x ∈ l) : listIdx (l ++ l2) x = listIdx l x := by
  induction l with
  | nil => cases h
  | cons y ys ih =>
    by_cases h0 : y = x
    · simp [listIdx, h0]
    · have hx : x ∈ ys := by
        rcases List.mem_cons.mp h with h1 | h1
        · exact absurd h1.symm h0
        · exact h1
      simp [listIdx, h0, ih hx]

theorem listIdx_append_self {l : List Node} {c : Node} (h : c ∉ l) :
    listIdx (l ++ [c]) c = l.length := by
  induction l with
  | nil => simp [listIdx]
  | cons y ys ih =>
    have h1 : y ≠ c := fun hh => h (hh ▸ List.mem_cons_self y ys)
    have h2 : c ∉ ys := fun hh => h (List.mem_cons_of_mem _ hh)
    simp [listIdx, h1, ih h2]

/-! ### Priority-queue membership -/

theorem mem_insertByPriority {α : Type} (x y : PQItem α) (l : List (PQItem α)) :
    y ∈ insertByPriority x l ↔ y = x ∨ y ∈ l := by
  induction l with
  | nil => simp [insertByPriority]
  | cons z zs ih =>
    by_cases h : z.priority ≤ x.priority
    · simp only [insertByPriority, if_pos h, List.mem_cons, ih]
      tauto
    · simp only [insertByPriority, if_neg h, List.mem_cons]

theorem mem_sortByPriority {α : Type} (y : PQItem α) (l : List (PQItem α)) :
    y ∈ sortByPriority l ↔ y ∈ l := by
  induction l with
  | nil => simp [sortByPriority]
  | cons z zs ih =>
    simp only [sortByPriority, mem_insertByPriority, List.mem_cons, ih]

theorem mem_enqueue {α : Type} (q : PriorityQueueState α) (x : α) (p : JsDist)
    (y : PQItem α) :
    y ∈ (enqueuePriorityQueue q x p).items ↔ y ∈ q.items ∨ y = ⟨x, p⟩ := by
  simp [enqueuePriorityQueue, mem_sortByPriority]

/-! ### Walks along predecessor links and end-extended paths -/

/-- `Walks previous oc L`: starting the backward walk at `oc`, repeatedly
prepending the current node and following `previous.get(current) ?? null`
terminates and produces exactly the list `L`. -/
inductive Walks (previous : PrevMap) : Option Node → List Node → Prop where
  | nil : Walks previous none []
  | cons (c : Node) (l : List Node) :
      Walks previous ((previous c).getD none) l → Walks previous (some c) (l ++ [c])

/-- `PathTo g start l q n`: `l` is a directed path from `start` to `n` whose
consecutive nodes are connected by stored edges with weight sum `q`. -/
inductive PathTo (g : Graph) (start : Node) : List Node → ℚ → Node → Prop where
  | single : PathTo g start [start] 0 start
  | snoc (l : List Node) (q : ℚ) (u : Node) (e : Edge) :
      PathTo g start l q u → e ∈ (assocGet g u).getD [] →
      PathTo g start (l ++ [e.«to»]) (q + e.weight) e.«to»

theorem PathTo_ne_nil {g : Graph} {start : Node} {l : List Node} {q : ℚ} {n : Node}
    (h : PathTo g start l q n) : l ≠ [] := by
  induction h with
  | single => simp
  | snoc l q u e _ _ _ => simp

theorem PathTo_head {g : Graph} {start : Node} {l : List Node} {q : ℚ} {n : Node}
    (h : PathTo g start l q n) : l.head? = some start := by
  induction h with
  | single => rfl
  | snoc l q u e hp _ ih =>
    rw [List.head?_append_of_ne_nil _ (PathTo_ne_nil hp)]
    exact ih

theorem PathTo_getLast {g : Graph} {start : Node} {l : List Node} {q : ℚ} {n : Node}
    (h : PathTo g start l q n) : l.getLast? = some n := by
  induction h with
  | single => rfl
  | snoc l q u e _ _ _ => simp

/-- With enough fuel, the reconstruction loop returns exactly the walk list. -/
theorem walkLoop_eq_of_walks {previous : PrevMap} {oc : Option Node} {L : List Node}
    (h : Walks previous oc L) :
    ∀ fuel, L.length ≤ fuel → ∀ acc, walkLoop previous fuel oc acc = L ++ acc := by
  induction h with
  | nil =>
    intro fuel _ acc
    cases fuel with
    | zero => show acc = [] ++ acc; simp
    | succ n => show acc = [] ++ acc; simp
  | cons c l hw ih =>
    intro fuel hlen acc
    cases fuel with
    | zero => simp at hlen
    | succ fuel' =>
      show walkLoop previous fuel' ((previous c).getD none) (c :: acc) = (l ++ [c]) ++ acc
      rw [ih fuel' (by simp at hlen; omega) (c :: acc)]
      simp

/-! ### Inversion of `findPaths` and `reconstructPathInternal` -/

theorem reconstructPathInternal_ok_inv {fuel : ℕ} {previous : PrevMap}
    {distances : DistMap} {target : Node} {r : ShortestPath}
    (h : reconstructPathInternal fuel previous distances target = Except.ok r) :
    ∃ d, distances target = some d ∧ d ≠ ⊤ ∧
      r = ⟨walkLoop previous fuel (some target) [], d⟩ := by
  unfold reconstructPathInternal at h
  by_cases h0 : (distances target).isSome
  · rw [if_neg (not_not_intro h0)] at h
    rcases Option.isSome_iff_exists.mp h0 with ⟨d, hd⟩
    rw [hd] at h
    simp only [Option.getD_some] at h
    by_cases h1 : d = ⊤
    · rw [if_pos h1] at h; cases h
    · rw [if_neg h1] at h
      injection h with h
      exact ⟨d, hd, h1, h.symm⟩
  · rw [if_pos h0] at h
    cases h

theorem findPaths_ok_inv {g : Graph} {start target : Node} {r : ShortestPath}
    (h : findPaths g start target = Except.ok r) :
    g.length ≠ 0 ∧ assocHas g start = true ∧
    reconstructPathInternal (walkFuel g) (executeDijkstraInternal g start).previous
      (executeDijkstraInternal g start).distances target = Except.ok r := by
  unfold findPaths at h
  dsimp only at h
  by_cases h0 : g.length = 0
  · rw [if_pos h0] at h; cases h
  · rw [if_neg h0] at h
    by_cases h1 : assocHas g start
    · rw [if_neg (by simpa using h1)] at h
      refine ⟨h0, by simpa using h1, ?_⟩
      cases hrec : reconstructPathInternal (walkFuel g)
          (executeDijkstraInternal g start).previous
          (executeDijkstraInternal g start).distances target with
      | error e =>
        rw [hrec] at h
        cases e with
        | NodeNotFound n =>
          by_cases h2 : ((executeDijkstraInternal g start).distances target).isSome <;>
            simp [h2] at h
        | NoPath a b => simp at h
      | ok v =>
        rw [hrec] at h
        simpa using h
    · rw [if_pos (by simpa using h1)] at h
      cases h

/-! ## Characterization of the Dijkstra initialization -/

/-- A node that is some stored edge's destination. -/
def destOf (l : Graph) (n : Node) : Prop :=
  ∃ p ∈ l, ∃ e ∈ p.2, e.«to» = n

theorem knownNode_iff {g : Graph} {n : Node} :
    knownNode g n ↔ n ∈ mapKeys g ∨ destOf g n := Iff.rfl

theorem mem_keys_cons {β : Type} {p : Node × β} {rest : List (Node × β)} {n : Node} :
    n ∈ mapKeys (p :: rest) ↔ n = p.1 ∨ n ∈ mapKeys rest := by
  simp [mapKeys]

theorem initFold1_spec (l : Graph) (start : Node) :
    ∀ m : DistMap × PrevMap,
      (∀ n, (l.foldl (initKeyStep start) m).1 n =
        if n ∈ mapKeys l then some (if strictEq n start then (0 : JsDist) else ⊤)
        else m.1 n) ∧
      (∀ n, (l.foldl (initKeyStep start) m).2 n =
        if n ∈ mapKeys l then some none else m.2 n) := by
  induction l with
  | nil =>
    intro m
    constructor <;> intro n <;> simp [mapKeys]
  | cons p rest ih =>
    intro m
    obtain ⟨ih1, ih2⟩ := ih (initKeyStep start m p)
    constructor <;> intro n
    · rw [List.foldl_cons, ih1 n]
      by_cases h1 : n ∈ mapKeys rest
      · rw [if_pos h1, if_pos (mem_keys_cons.mpr (Or.inr h1))]
      · by_cases h2 : n = p.1
        · rw [if_neg h1, if_pos (mem_keys_cons.mpr (Or.inl h2))]
          subst h2
          simp [initKeyStep, fset]
        · rw [if_neg h1, if_neg (fun hc => (mem_keys_cons.mp hc).elim h2 h1)]
          simp [initKeyStep, fset, h2]
    · rw [List.foldl_cons, ih2 n]
      by_cases h1 : n ∈ mapKeys rest
      · rw [if_pos h1, if_pos (mem_keys_cons.mpr (Or.inr h1))]
      · by_cases h2 : n = p.1
        · rw [if_neg h1, if_pos (mem_keys_cons.mpr (Or.inl h2))]
          subst h2
          simp [initKeyStep, fset]
        · rw [if_neg h1, if_neg (fun hc => (mem_keys_cons.mp hc).elim h2 h1)]
          simp [initKeyStep, fset, h2]

/-- The destination pass only fills absent entries, and only with
`(Infinity, null)`. -/
theorem initFold2_inner_spec (es : List Edge) :
    ∀ (m : DistMap × PrevMap) (n : Node),
      ((es.foldl initDestStep m).1 n = m.1 n ∧
        (es.foldl initDestStep m).2 n = m.2 n ∧
        ((m.1 n).isSome ∨ ∀ e ∈ es, e.«to» ≠ n)) ∨
      ((es.foldl initDestStep m).1 n = some ⊤ ∧
        (es.foldl initDestStep m).2 n = some none ∧
        ¬ (m.1 n).isSome ∧ ∃ e ∈ es, e.«to» = n) := by
  induction es with
  | nil =>
    intro m n
    exact Or.inl ⟨rfl, rfl, Or.inr (by intro e he; cases he)⟩
  | cons e rest ih =>
    intro m n
    rw [List.foldl_cons]
    by_cases hs : (m.1 e.«to»).isSome
    · -- the head edge's write is skipped
      have hmd : initDestStep m e = m := by simp [initDestStep, hs]
      rw [hmd]
      rcases ih m n with ⟨h1, h2, h3⟩ | ⟨h1, h2, h3, h4⟩
      · refine Or.inl ⟨h1, h2, ?_⟩
        rcases h3 with h3 | h3
        · exact Or.inl h3
        · by_cases hn : (m.1 n).isSome
          · exact Or.inl hn
          · refine Or.inr ?_
            intro e' he'
            rcases List.mem_cons.mp he' with he' | he'
            · subst he'
              intro hc
              exact hn (hc ▸ hs)
            · exact h3 e' he'
      · obtain ⟨e', he', hto⟩ := h4
        exact Or.inr ⟨h1, h2, h3, ⟨e', List.mem_cons_of_mem _ he', hto⟩⟩
    · by_cases hton : e.«to» = n
      · -- the head edge writes `(Infinity, null)` at `n`
        subst hton
        have hd1 : (initDestStep m e).1 e.«to» = some ⊤ := by
          simp [initDestStep, hs, fset]
        have hd2 : (initDestStep m e).2 e.«to» = some none := by
          simp [initDestStep, hs, fset]
        rcases ih (initDestStep m e) e.«to» with ⟨h1, h2, h3⟩ | ⟨h1, h2, h3, h4⟩
        · exact Or.inr ⟨h1.trans hd1, h2.trans hd2, hs,
            ⟨e, List.mem_cons_self _ _, rfl⟩⟩
        · exact absurd (by rw [hd1]; rfl) h3
      · have hne : ¬ n = e.«to» := fun hh => hton hh.symm
        have hd1 : (initDestStep m e).1 n = m.1 n := by
          simp [initDestStep, hs, fset, hne]
        have hd2 : (initDestStep m e).2 n = m.2 n := by
          simp [initDestStep, hs, fset, hne]
        rcases ih (initDestStep m e) n with ⟨h1, h2, h3⟩ | ⟨h1, h2, h3, h4⟩
        · refine Or.inl ⟨h1.trans hd1, h2.trans hd2, ?_⟩
          rcases h3 with h3 | h3
          · exact Or.inl (by rwa [hd1] at h3)
          · refine Or.inr ?_
            intro e' he'
            rcases List.mem_cons.mp he' with he' | he'
            · subst he'
              exact fun hh => hton hh
            · exact h3 e' he'
        · refine Or.inr ⟨h1, h2, by rwa [hd1] at h3, ?_⟩
          obtain ⟨e', he', hto⟩ := h4
          exact ⟨e', List.mem_cons_of_mem _ he', hto⟩

theorem destOf_cons {p : Node × List Edge} {rest : Graph} {n : Node} :
    destOf (p :: rest) n ↔ (∃ e ∈ p.2, e.«to» = n) ∨ destOf rest n := by
  constructor
  · rintro ⟨q, hq, e, he, hto⟩
    rcases List.mem_cons.mp hq with hq | hq
    · subst hq
      exact Or.inl ⟨e, he, hto⟩
    · exact Or.inr ⟨q, hq, e, he, hto⟩
  · rintro (⟨e, he, hto⟩ | ⟨q, hq, e, he, hto⟩)
    · exact ⟨p, List.mem_cons_self _ _, e, he, hto⟩
    · exact ⟨q, List.mem_cons_of_mem _ hq, e, he, hto⟩

theorem initFold2_spec (l : Graph) :
    ∀ (m : DistMap × PrevMap) (n : Node),
      ((l.foldl (fun m p => p.2.foldl initDestStep m) m).1 n = m.1 n ∧
        (l.foldl (fun m p => p.2.foldl initDestStep m) m).2 n = m.2 n ∧
        ((m.1 n).isSome ∨ ¬ destOf l n)) ∨
      ((l.foldl (fun m p => p.2.foldl initDestStep m) m).1 n = some ⊤ ∧
        (l.foldl (fun m p => p.2.foldl initDestStep m) m).2 n = some none ∧
        ¬ (m.1 n).isSome ∧ destOf l n) := by
  induction l with
  | nil =>
    intro m n
    exact Or.inl ⟨rfl, rfl, Or.inr (by rintro ⟨p, hp, -⟩; cases hp)⟩
  | cons p rest ih =>
    intro m n
    rw [List.foldl_cons]
    rcases initFold2_inner_spec p.2 m n with ⟨i1, i2, i3⟩ | ⟨i1, i2, i3, i4⟩
    · rcases ih (p.2.foldl initDestStep m) n with ⟨h1, h2, h3⟩ | ⟨h1, h2, h3, h4⟩
      · refine Or.inl ⟨h1.trans i1, h2.trans i2, ?_⟩
        by_cases hn : (m.1 n).isSome
        · exact Or.inl hn
        · refine Or.inr ?_
          intro hd
          rcases destOf_cons.mp hd with hd | hd
          · rcases i3 with i3 | i3
            · exact hn i3
            · obtain ⟨e, he, hto⟩ := hd
              exact i3 e he hto
          · rcases h3 with h3 | h3
            · rw [i1] at h3
              exact hn h3
            · exact h3 hd
      · refine Or.inr ⟨h1, h2, ?_, destOf_cons.mpr (Or.inr h4)⟩
        rw [i1] at h3
        exact h3
    · rcases ih (p.2.foldl initDestStep m) n with ⟨h1, h2, h3⟩ | ⟨h1, h2, h3, h4⟩
      · exact Or.inr ⟨h1.trans i1, h2.trans i2, i3, destOf_cons.mpr (Or.inl i4)⟩
      · exact absurd (by rw [i1]; rfl) h3

theorem strictEq_self {a : Node} (h : a ≠ JsValue.nan) : strictEq a a = true := by
  simp [strictEq, h]

theorem eq_of_strictEq {a b : Node} (h : strictEq a b = true) : a = b := by
  unfold strictEq at h
  by_cases hc : a = JsValue.nan ∨ b = JsValue.nan
  · rw [if_pos hc] at h
    cases h
  · rw [if_neg hc] at h
    exact of_decide_eq_true h

/-- The facts about `initMaps` the loop invariant needs. -/
structure InitProps (g : Graph) (start : Node) : Prop where
  dom : ∀ n, ((initMaps g start).1 n).isSome ↔ knownNode g n
  domP : ∀ n, ((initMaps g start).1 n).isSome ↔ ((initMaps g start).2 n).isSome
  prevNull : ∀ n, (initMaps g start).2 n = none ∨ (initMaps g start).2 n = some none
  values : ∀ n dd, (initMaps g start).1 n = some dd →
      dd = ⊤ ∨ (dd = 0 ∧ strictEq n start = true)
  startVal : start ∈ mapKeys g → start ≠ JsValue.nan →
      (initMaps g start).1 start = some 0 ∧ (initMaps g start).2 start = some none

theorem initMaps_props (g : Graph) (start : Node) : InitProps g start := by
  obtain ⟨f1, f2⟩ := initFold1_spec g start (fun _ => none, fun _ => none)
  have hinit : initMaps g start =
      g.foldl (fun m p => p.2.foldl initDestStep m)
        (g.foldl (initKeyStep start) (fun _ => none, fun _ => none)) := rfl
  set m1 := g.foldl (initKeyStep start) (fun _ => none, fun _ => none) with hm1
  have hm1v : ∀ n, m1.1 n =
      if n ∈ mapKeys g then some (if strictEq n start then (0 : JsDist) else ⊤)
      else none := f1
  have hm1p : ∀ n, m1.2 n = if n ∈ mapKeys g then some none else none := f2
  refine ⟨?_, ?_, ?_, ?_, ?_⟩
  · intro n
    rw [hinit]
    rcases initFold2_spec g m1 n with ⟨h1, -, h3⟩ | ⟨h1, -, -, h4⟩
    · rw [h1, hm1v n]
      by_cases hk : n ∈ mapKeys g
      · simp [hk, knownNode]
      · rw [if_neg hk]
        simp only [Option.isSome_none, Bool.false_eq_true, false_iff]
        intro hkn
        rcases knownNode_iff.mp hkn with hkn | hkn
        · exact hk hkn
        · rcases h3 with h3 | h3
          · rw [hm1v n, if_neg hk] at h3
            cases h3
          · exact h3 hkn
    · rw [h1]
      simp only [Option.isSome_some, true_iff]
      exact knownNode_iff.mpr (Or.inr h4)
  · intro n
    rw [hinit]
    rcases initFold2_spec g m1 n with ⟨h1, h2, -⟩ | ⟨h1, h2, -, -⟩
    · rw [h1, h2, hm1v n, hm1p n]
      by_cases hk : n ∈ mapKeys g <;> simp [hk]
    · rw [h1, h2]
      simp
  · intro n
    rw [hinit]
    rcases initFold2_spec g m1 n with ⟨-, h2, -⟩ | ⟨-, h2, -, -⟩
    · rw [h2, hm1p n]
      by_cases hk : n ∈ mapKeys g <;> simp [hk]
    · rw [h2]
      simp
  · intro n dd
    rw [hinit]
    rcases initFold2_spec g m1 n with ⟨h1, -, -⟩ | ⟨h1, -, -, -⟩
    · rw [h1, hm1v n]
      by_cases hk : n ∈ mapKeys g
      · rw [if_pos hk]
        intro hdd
        injection hdd with hdd
        subst hdd
        by_cases hs : strictEq n start
        · exact Or.inr ⟨by rw [if_pos hs], hs⟩
        · exact Or.inl (by rw [if_neg hs])
      · rw [if_neg hk]
        intro hdd
        cases hdd
    · rw [h1]
      intro hdd
      injection hdd with hdd
      exact Or.inl hdd.symm
  · intro hk hnan
    have hs1 : m1.1 start = some 0 := by
      rw [hm1v start, if_pos hk, strictEq_self hnan]
      rfl
    have hs2 : m1.2 start = some none := by
      rw [hm1p start, if_pos hk]
    rw [hinit]
    rcases initFold2_spec g m1 start with ⟨h1, h2, -⟩ | ⟨-, -, h3, -⟩
    · exact ⟨h1.trans hs1, h2.trans hs2⟩
    · exact absurd (by rw [hs1]; rfl) h3

/-! ## The Dijkstra loop invariant -/

theorem known_of_mem_outE {g : Graph} {u : Node} {e : Edge}
    (he : e ∈ (assocGet g u).getD []) : knownNode g e.«to» := by
  cases hget : assocGet g u with
  | none =>
    rw [hget] at he
    cases he
  | some l =>
    rw [hget] at he
    exact Or.inr ⟨(u, l), assocGet_mem hget, e, he, rfl⟩

/-- The invariant maintained by the Dijkstra work loop.  `prevOrder` orders
predecessors by visit time, `prevEdge` ties every predecessor entry to a
stored edge and the distance equation, and `finiteChar` characterizes the
nodes with finite recorded distance. -/
structure DInv (g : Graph) (start : Node) (s : DijkstraState) : Prop where
  domDist : ∀ n, (s.distances n).isSome ↔ knownNode g n
  domPrev : ∀ n, (s.distances n).isSome ↔ (s.previous n).isSome
  prevVisited : ∀ n u, s.previous n = some (some u) → u ∈ s.visited
  prevOrder : ∀ n u, s.previous n = some (some u) → n ∈ s.visited →
      listIdx s.visited u < listIdx s.visited n
  prevEdge : ∀ n u, s.previous n = some (some u) →
      ∃ e ∈ (assocGet g u).getD [], e.«to» = n ∧
        s.distances n = some ((s.distances u).getD ⊤ + (e.weight : JsDist))
  finiteChar : ∀ n d, s.distances n = some d → d ≠ ⊤ →
      (n = start ∧ d = 0) ∨ ∃ u, s.previous n = some (some u)
  visitedNodup : s.visited.Nodup
  visitedKnown : ∀ n ∈ s.visited, n = start ∨ knownNode g n
  queueKnown : ∀ it ∈ s.queue.items, it.item = start ∨ knownNode g it.item

theorem dInv_init (g : Graph) (start : Node) : DInv g start (initState g start) := by
  have hp := initMaps_props g start
  have hpv : (initState g start).previous = (initMaps g start).2 := rfl
  refine ⟨hp.dom, hp.domP, ?_, ?_, ?_, ?_, List.nodup_nil, ?_, ?_⟩
  · intro n u hn
    rw [hpv] at hn
    rcases hp.prevNull n with h | h <;> rw [h] at hn <;> cases hn
  · intro n u hn
    rw [hpv] at hn
    rcases hp.prevNull n with h | h <;> rw [h] at hn <;> cases hn
  · intro n u hn
    rw [hpv] at hn
    rcases hp.prevNull n with h | h <;> rw [h] at hn <;> cases hn
  · intro n d hd hne
    rcases hp.values n d hd with h | h
    · exact absurd h hne
    · exact Or.inl ⟨eq_of_strictEq h.2, h.1⟩
  · intro n hn
    cases hn
  · intro it hit
    rcases (mem_enqueue _ _ _ _).mp hit with h | h
    · cases h
    · subst h
      exact Or.inl rfl

theorem fset_self {β : Type} (f : Node → Option β) (k : Node) (v : β) :
    fset f k v k = some v := by
  simp [fset]

theorem fset_ne {β : Type} (f : Node → Option β) (k n : Node) (v : β) (h : n ≠ k) :
    fset f k v n = f n := by
  simp [fset, h]

theorem relaxEdge_inv {g : Graph} {start : Node} (visited : List Node)
    {s : DijkstraState} {current : Node} {currentDistance : JsDist} {e : Edge}
    (hInv : DInv g start s) (hvis : s.visited = visited)
    (hcur : current ∈ visited)
    (hcd : (s.distances current).getD ⊤ = currentDistance)
    (he : e ∈ (assocGet g current).getD []) :
    DInv g start (relaxEdge visited current currentDistance s e) ∧
    (relaxEdge visited current currentDistance s e).visited = visited ∧
    ((relaxEdge visited current currentDistance s e).distances current).getD ⊤ =
      currentDistance := by
  unfold relaxEdge
  by_cases hto : e.«to» ∈ visited
  · rw [if_pos hto]
    exact ⟨hInv, hvis, hcd⟩
  · rw [if_neg hto]
    by_cases hlt : currentDistance + (e.weight : JsDist) < (s.distances e.«to»).getD ⊤
    · rw [if_pos hlt]
      have hcurne : current ≠ e.«to» := fun hh => hto (hh ▸ hcur)
      have htoknown : knownNode g e.«to» := known_of_mem_outE he
      refine ⟨⟨?_, ?_, ?_, ?_, ?_, ?_, hInv.visitedNodup, hInv.visitedKnown, ?_⟩,
        hvis, ?_⟩
      · intro n
        dsimp only
        by_cases hn : n = e.«to»
        · subst hn
          rw [fset_self]
          simpa using htoknown
        · rw [fset_ne _ _ _ _ hn]
          exact hInv.domDist n
      · intro n
        dsimp only
        by_cases hn : n = e.«to»
        · subst hn
          rw [fset_self, fset_self]
          simp
        · rw [fset_ne _ _ _ _ hn, fset_ne _ _ _ _ hn]
          exact hInv.domPrev n
      · intro n u hn
        dsimp only at hn ⊢
        by_cases hn' : n = e.«to»
        · subst hn'
          rw [fset_self] at hn
          injection hn with hn
          cases hn
          exact hvis ▸ hcur
        · rw [fset_ne _ _ _ _ hn'] at hn
          exact hInv.prevVisited n u hn
      · intro n u hn hnv
        dsimp only at hn hnv ⊢
        by_cases hn' : n = e.«to»
        · subst hn'
          exact absurd (hvis ▸ hnv) hto
        · rw [fset_ne _ _ _ _ hn'] at hn
          exact hInv.prevOrder n u hn hnv
      · intro n u hn
        dsimp only at hn ⊢
        by_cases hn' : n = e.«to»
        · subst hn'
          rw [fset_self] at hn
          injection hn with hn
          injection hn with hn
          subst hn
          refine ⟨e, he, rfl, ?_⟩
          rw [fset_self, fset_ne _ _ _ _ hcurne, hcd]
        · rw [fset_ne _ _ _ _ hn'] at hn
          obtain ⟨e', he', hto', hdist⟩ := hInv.prevEdge n u hn
          have hune : u ≠ e.«to» := fun hh =>
            hto (hh ▸ (hvis ▸ hInv.prevVisited n u hn))
          refine ⟨e', he', hto', ?_⟩
          rw [fset_ne _ _ _ _ hn', fset_ne _ _ _ _ hune]
          exact hdist
      · intro n d hd hne
        dsimp only at hd ⊢
        by_cases hn' : n = e.«to»
        · subst hn'
          refine Or.inr ⟨current, ?_⟩
          rw [fset_self]
        · rw [fset_ne _ _ _ _ hn'] at hd
          rcases hInv.finiteChar n d hd hne with h | ⟨u, hu⟩
          · exact Or.inl h
          · refine Or.inr ⟨u, ?_⟩
            rw [fset_ne _ _ _ _ hn']
            exact hu
      · intro it hit
        dsimp only at hit
        rcases (mem_enqueue _ _ _ _).mp hit with h | h
        · exact hInv.queueKnown it h
        · subst h
          exact Or.inr htoknown
      · dsimp only
        rw [fset_ne _ _ _ _ hcurne]
        exact hcd
    · rw [if_neg hlt]
      exact ⟨hInv, hvis, hcd⟩

theorem relaxFold_inv {g : Graph} {start : Node} (visited : List Node)
    (current : Node) (currentDistance : JsDist) (es : List Edge) :
    ∀ s : DijkstraState, DInv g start s → s.visited = visited →
      current ∈ visited →
      (s.distances current).getD ⊤ = currentDistance →
      (∀ e ∈ es, e ∈ (assocGet g current).getD []) →
      DInv g start (es.foldl (relaxEdge visited current currentDistance) s) ∧
      (es.foldl (relaxEdge visited current currentDistance) s).visited = visited := by
  induction es with
  | nil =>
    intro s hInv hvis _ _ _
    exact ⟨hInv, hvis⟩
  | cons e rest ih =>
    intro s hInv hvis hcur hcd hes
    rw [List.foldl_cons]
    obtain ⟨hInv', hvis', hcd'⟩ :=
      relaxEdge_inv visited hInv hvis hcur hcd (hes e (List.mem_cons_self _ _))
    exact ih _ hInv' hvis' hcur hcd' (fun e' he' => hes e' (List.mem_cons_of_mem _ he'))

theorem visitStep_inv {g : Graph} {start : Node} {s : DijkstraState}
    (current : Node) (hInv : DInv g start s) (hcur : current ∉ s.visited)
    (hknown : current = start ∨ knownNode g current) :
    DInv g start { s with visited := s.visited ++ [current] } := by
  refine ⟨hInv.domDist, hInv.domPrev, ?_, ?_, hInv.prevEdge, hInv.finiteChar,
    ?_, ?_, hInv.queueKnown⟩
  · intro n u hn
    exact List.mem_append_left _ (hInv.prevVisited n u hn)
  · intro n u hn hnv
    dsimp only at hnv ⊢
    have hu : u ∈ s.visited := hInv.prevVisited n u hn
    rcases List.mem_append.mp hnv with hnv | hnv
    · rw [listIdx_append_of_mem _ hu, listIdx_append_of_mem _ hnv]
      exact hInv.prevOrder n u hn hnv
    · have hnc : n = current := List.mem_singleton.mp hnv
      subst hnc
      rw [listIdx_append_of_mem _ hu, listIdx_append_self hcur]
      exact listIdx_lt_length hu
  · dsimp only
    refine List.Nodup.append hInv.visitedNodup (List.nodup_singleton _) ?_
    intro a ha hb
    rw [List.mem_singleton] at hb
    subst hb
    exact hcur ha
  · intro n hn
    dsimp only at hn
    rcases List.mem_append.mp hn with hn | hn
    · exact hInv.visitedKnown n hn
    · rw [List.mem_singleton] at hn
      subst hn
      exact hknown

/-- Unfolding equation for one iteration of the work loop with a non-empty
queue. -/
theorem dijkstraLoop_succ_cons (g : Graph) (fuel : ℕ) (sd : DistMap)
    (sp : PrevMap) (sv : List Node) (first : PQItem Node)
    (rest : List (PQItem Node)) :
    dijkstraLoop g (fuel + 1) ⟨sd, sp, sv, ⟨first :: rest⟩⟩ =
      (if jsFalsy first.item || first.item ∈ sv then
        dijkstraLoop g fuel ⟨sd, sp, sv, ⟨rest⟩⟩
      else
        dijkstraLoop g fuel
          (((assocGet g first.item).getD []).foldl
            (relaxEdge (sv ++ [first.item]) first.item ((sd first.item).getD ⊤))
            ⟨sd, sp, sv ++ [first.item], ⟨rest⟩⟩)) := rfl

theorem dijkstraLoop_inv (g : Graph) (start : Node) :
    ∀ (fuel : ℕ) (s : DijkstraState), DInv g start s →
      DInv g start (dijkstraLoop g fuel s) := by
  intro fuel
  induction fuel with
  | zero => intro s hInv; exact hInv
  | succ fuel ih =>
    rintro ⟨sd, sp, sv, qitems⟩ hInv
    obtain ⟨qitems⟩ := qitems
    cases qitems with
    | nil => exact hInv
    | cons first rest =>
      rw [dijkstraLoop_succ_cons]
      have hInvRest : DInv g start ⟨sd, sp, sv, ⟨rest⟩⟩ :=
        ⟨hInv.domDist, hInv.domPrev, hInv.prevVisited, hInv.prevOrder,
          hInv.prevEdge, hInv.finiteChar, hInv.visitedNodup, hInv.visitedKnown,
          fun it hit => hInv.queueKnown it (List.mem_cons_of_mem _ hit)⟩
      by_cases hc : (jsFalsy first.item || first.item ∈ sv : Bool) = true
      · rw [if_pos hc]
        exact ih _ hInvRest
      · rw [if_neg hc]
        have hnotvis : first.item ∉ sv := by
          intro hm
          exact hc (by simp [hm])
      
        have hknown : first.item = start ∨ knownNode g first.item :=
          hInv.queueKnown first (List.mem_cons_self _ _)
        have hInv2 : DInv g start ⟨sd, sp, sv ++ [first.item], ⟨rest⟩⟩ :=
          visitStep_inv first.item hInvRest hnotvis hknown
        have hfold := relaxFold_inv (sv ++ [first.item]) first.item
          ((sd first.item).getD ⊤) ((assocGet g first.item).getD [])
          ⟨sd, sp, sv ++ [first.item], ⟨rest⟩⟩ hInv2 rfl
          (List.mem_append_right _ (List.mem_singleton_self _)) rfl
          (fun e he => he)
        exact ih _ hfold.1

theorem dijkstraRun_inv (g : Graph) (start : Node) :
    DInv g start (dijkstraRun g start) :=
  dijkstraLoop_inv g start _ _ (dInv_init g start)

/-! ## The non-negativity invariant (under the `Weight` data model) -/

/-- With non-negative weights, all recorded distances stay non-negative and
(for a well-formed start key) the start entry is frozen at `(0, null)`. -/
structure DInvNN (g : Graph) (start : Node) (s : DijkstraState) : Prop where
  distNonneg : ∀ n d, s.distances n = some d → 0 ≤ d
  startZero : start ∈ mapKeys g → start ≠ JsValue.nan →
      s.distances start = some 0 ∧ s.previous start = some none

theorem dInvNN_init (g : Graph) (start : Node) : DInvNN g start (initState g start) := by
  have hp := initMaps_props g start
  constructor
  · intro n d hd
    rcases hp.values n d hd with h | h
    · rw [h]
      exact le_top
    · rw [h.1]
  · exact hp.startVal

theorem relaxEdge_nn {g : Graph} {start : Node} (visited : List Node)
    {s : DijkstraState} {current : Node} {currentDistance : JsDist} {e : Edge}
    (hnn : DInvNN g start s) (hcd0 : 0 ≤ currentDistance) (hw : 0 ≤ e.weight) :
    DInvNN g start (relaxEdge visited current currentDistance s e) := by
  unfold relaxEdge
  by_cases hto : e.«to» ∈ visited
  · rw [if_pos hto]
    exact hnn
  · rw [if_neg hto]
    by_cases hlt : currentDistance + (e.weight : JsDist) < (s.distances e.«to»).getD ⊤
    · rw [if_pos hlt]
      have hnd : (0 : JsDist) ≤ currentDistance + (e.weight : JsDist) := by
        have hw' : (0 : JsDist) ≤ (e.weight : JsDist) := by exact_mod_cast hw
        exact add_nonneg hcd0 hw'
      constructor
      · intro n d hd
        dsimp only at hd
        by_cases hn : n = e.«to»
        · subst hn
          rw [fset_self] at hd
          injection hd with hd
          subst hd
          exact hnd
        · rw [fset_ne _ _ _ _ hn] at hd
          exact hnn.distNonneg n d hd
      · intro hk hnan
        obtain ⟨hz1, hz2⟩ := hnn.startZero hk hnan
        have hstartne : e.«to» ≠ start := by
          intro hh
          subst hh
          rw [hz1] at hlt
          simp only [Option.getD_some] at hlt
          exact absurd hlt (not_lt.mpr hnd)
        constructor
        · dsimp only
          rw [fset_ne _ _ _ _ (fun hh => hstartne hh.symm)]
          exact hz1
        · dsimp only
          rw [fset_ne _ _ _ _ (fun hh => hstartne hh.symm)]
          exact hz2
    · rw [if_neg hlt]
      exact hnn

theorem relaxFold_nn {g : Graph} {start : Node} (visited : List Node)
    (current : Node) (currentDistance : JsDist) (es : List Edge) :
    ∀ s : DijkstraState, DInvNN g start s → 0 ≤ currentDistance →
      (∀ e ∈ es, 0 ≤ e.weight) →
      DInvNN g start (es.foldl (relaxEdge visited current currentDistance) s) := by
  induction es with
  | nil => intro s hnn _ _; exact hnn
  | cons e rest ih =>
    intro s hnn hcd0 hes
    rw [List.foldl_cons]
    exact ih _ (relaxEdge_nn visited hnn hcd0 (hes e (List.mem_cons_self _ _)))
      hcd0 (fun e' he' => hes e' (List.mem_cons_of_mem _ he'))

theorem dijkstraLoop_nn (g : Graph) (start : Node) (hnng : NonnegG g) :
    ∀ (fuel : ℕ) (s : DijkstraState), DInvNN g start s →
      DInvNN g start (dijkstraLoop g fuel s) := by
  intro fuel
  induction fuel with
  | zero => intro s hnn; exact hnn
  | succ fuel ih =>
    rintro ⟨sd, sp, sv, qitems⟩ hnn
    obtain ⟨qitems⟩ := qitems
    cases qitems with
    | nil => exact hnn
    | cons first rest =>
      rw [dijkstraLoop_succ_cons]
      have hnnRest : DInvNN g start ⟨sd, sp, sv, ⟨rest⟩⟩ :=
        ⟨hnn.distNonneg, hnn.startZero⟩
      by_cases hc : (jsFalsy first.item || first.item ∈ sv : Bool) = true
      · rw [if_pos hc]
        exact ih _ hnnRest
      · rw [if_neg hc]
        have hnn2 : DInvNN g start ⟨sd, sp, sv ++ [first.item], ⟨rest⟩⟩ :=
          ⟨hnn.distNonneg, hnn.startZero⟩
        have hcd0 : (0 : JsDist) ≤ (sd first.item).getD ⊤ := by
          cases hgd : sd first.item with
          | none => exact le_top
          | some d => simpa using hnn.distNonneg first.item d hgd
        have hws : ∀ e ∈ (assocGet g first.item).getD [], 0 ≤ e.weight := by
          intro e he
          cases hget : assocGet g first.item with
          | none =>
            rw [hget] at he
            cases he
          | some l =>
            rw [hget] at he
            exact hnng (first.item, l) (assocGet_mem hget) e he
        exact ih _ (relaxFold_nn (sv ++ [first.item]) first.item
          ((sd first.item).getD ⊤) ((assocGet g first.item).getD [])
          ⟨sd, sp, sv ++ [first.item], ⟨rest⟩⟩ hnn2 hcd0 hws)

theorem dijkstraRun_nn (g : Graph) (start : Node) (hnng : NonnegG g) :
    DInvNN g start (dijkstraRun g start) :=
  dijkstraLoop_nn g start hnng _ _ (dInvNN_init g start)

/-! ## Predecessor chains -/

/-- Measure for walking predecessor chains backwards: visited nodes are
measured by their visit index, unvisited ones by the number of visits. -/
def visitMeasure (visited : List Node) (n : Node) : ℕ :=
  if n ∈ visited then listIdx visited n else visited.length

theorem visitMeasure_le (visited : List Node) (n : Node) :
    visitMeasure visited n ≤ visited.length := by
  unfold visitMeasure
  by_cases h : n ∈ visited
  · rw [if_pos h]
    exact le_of_lt (listIdx_lt_length h)
  · rw [if_neg h]

theorem visitMeasure_lt {visited : List Node} {u n : Node} (hu : u ∈ visited)
    (hlt : n ∈ visited → listIdx visited u < listIdx visited n) :
    visitMeasure visited u < visitMeasure visited n := by
  unfold visitMeasure
  rw [if_pos hu]
  by_cases hn : n ∈ visited
  · rw [if_pos hn]
    exact hlt hn
  · rw [if_neg hn]
    exact listIdx_lt_length hu

/-- From a predecessor map satisfying the invariant, the backward walk from
any node terminates, with length bounded by the number of visited nodes. -/
theorem walks_exists {g : Graph} {start : Node} {s : DijkstraState}
    (hInv : DInv g start s) (n : Node) :
    ∃ L, Walks s.previous (some n) L ∧ L.length ≤ s.visited.length + 1 := by
  suffices h : ∀ (k : ℕ) (n : Node), visitMeasure s.visited n ≤ k →
      ∃ L, Walks s.previous (some n) L ∧
        L.length ≤ visitMeasure s.visited n + 1 by
    obtain ⟨L, hw, hlen⟩ := h (visitMeasure s.visited n) n le_rfl
    exact ⟨L, hw, le_trans hlen (by
      have := visitMeasure_le s.visited n
      omega)⟩
  intro k
  induction k with
  | zero =>
    intro n hk
    cases hp : (s.previous n).getD none with
    | none =>
      refine ⟨[n], ?_, by simp⟩
      have hnil : Walks s.previous ((s.previous n).getD none) [] := by
        rw [hp]
        exact Walks.nil
      have := @Walks.cons s.previous n [] hnil
      simpa using this
    | some u =>
      have hprev : s.previous n = some (some u) := by
        cases hpn : s.previous n with
        | none => rw [hpn] at hp; cases hp
        | some v => rw [hpn] at hp; simp at hp; rw [hp]
      have hu : u ∈ s.visited := hInv.prevVisited n u hprev
      have := visitMeasure_lt hu (hInv.prevOrder n u hprev)
      omega
  | succ k ih =>
    intro n hk
    cases hp : (s.previous n).getD none with
    | none =>
      refine ⟨[n], ?_, by simp⟩
      have hnil : Walks s.previous ((s.previous n).getD none) [] := by
        rw [hp]
        exact Walks.nil
      have := @Walks.cons s.previous n [] hnil
      simpa using this
    | some u =>
      have hprev : s.previous n = some (some u) := by
        cases hpn : s.previous n with
        | none => rw [hpn] at hp; cases hp
        | some v => rw [hpn] at hp; simp at hp; rw [hp]
      have hu : u ∈ s.visited := hInv.prevVisited n u hprev
      have hmlt := visitMeasure_lt hu (hInv.prevOrder n u hprev)
      obtain ⟨L', hw', hlen'⟩ := ih u (by omega)
      refine ⟨L' ++ [n], ?_, ?_⟩
      · refine Walks.cons n L' ?_
        rw [hp]
        exact hw'
      · simp only [List.length_append, List.length_singleton]
        omega

/-- Every finite recorded distance is realized by the predecessor-walk path:
the walk list is a directed path from the start whose weights sum to the
recorded distance. -/
theorem dist_path_exists {g : Graph} {start : Node} {s : DijkstraState}
    (hInv : DInv g start s) :
    ∀ (n : Node) (q : ℚ), s.distances n = some ((q : ℚ) : JsDist) →
      ∃ L, Walks s.previous (some n) L ∧ PathTo g start L q n ∧
        L.length ≤ s.visited.length + 1 := by
  suffices h : ∀ (k : ℕ) (n : Node) (q : ℚ), visitMeasure s.visited n ≤ k →
      s.distances n = some ((q : ℚ) : JsDist) →
      ∃ L, Walks s.previous (some n) L ∧ PathTo g start L q n ∧
        L.length ≤ visitMeasure s.visited n + 1 by
    intro n q hq
    obtain ⟨L, hw, hp, hlen⟩ := h (visitMeasure s.visited n) n q le_rfl hq
    exact ⟨L, hw, hp, le_trans hlen (by
      have := visitMeasure_le s.visited n
      omega)⟩
  have hstep : ∀ (k : ℕ), (∀ (j : ℕ) (n : Node) (q : ℚ), j < k →
        visitMeasure s.visited n ≤ j →
        s.distances n = some ((q : ℚ) : JsDist) →
        ∃ L, Walks s.previous (some n) L ∧ PathTo g start L q n ∧
          L.length ≤ visitMeasure s.visited n + 1) →
      ∀ (n : Node) (q : ℚ), visitMeasure s.visited n ≤ k →
        s.distances n = some ((q : ℚ) : JsDist) →
        ∃ L, Walks s.previous (some n) L ∧ PathTo g start L q n ∧
          L.length ≤ visitMeasure s.visited n + 1 := by
    intro k ih n q hk hq
    cases hp : (s.previous n).getD none with
    | none =>
      -- the chain ends immediately: `n` must be the start at distance 0
      have hfin : ((q : ℚ) : JsDist) ≠ ⊤ := WithTop.coe_ne_top
      rcases hInv.finiteChar n _ hq hfin with ⟨hns, hq0⟩ | ⟨u, hu⟩
      · subst hns
        have hq0' : q = 0 := by exact_mod_cast hq0
        subst hq0'
        refine ⟨[n], ?_, PathTo.single, by simp⟩
        have hnil : Walks s.previous ((s.previous n).getD none) [] := by
          rw [hp]
          exact Walks.nil
        have := @Walks.cons s.previous n [] hnil
        simpa using this
      · rw [hu] at hp
        simp at hp
    | some u =>
      have hprev : s.previous n = some (some u) := by
        cases hpn : s.previous n with
        | none => rw [hpn] at hp; cases hp
        | some v => rw [hpn] at hp; simp at hp; rw [hp]
      have hu : u ∈ s.visited := hInv.prevVisited n u hprev
      have hmlt := visitMeasure_lt hu (hInv.prevOrder n u hprev)
      obtain ⟨e, he, hto, hdist⟩ := hInv.prevEdge n u hprev
      rw [hq] at hdist
      -- the predecessor's distance is finite
      cases hdu : s.distances u with
      | none =>
        rw [hdu] at hdist
        simp only [Option.getD_none, top_add] at hdist
        injection hdist with hdist
        exact absurd hdist WithTop.coe_ne_top
      | some du =>
        rw [hdu] at hdist
        simp only [Option.getD_some] at hdist
        injection hdist with heq
        have hdune : du ≠ ⊤ := by
          intro hh
          rw [hh, top_add] at heq
          exact WithTop.coe_ne_top heq
        obtain ⟨qu, hqu⟩ := WithTop.ne_top_iff_exists.mp hdune
        have hqeq : q = qu + e.weight := by
          rw [← hqu, ← WithTop.coe_add] at heq
          exact_mod_cast heq
        obtain ⟨L', hw', hp', hlen'⟩ :=
          ih (visitMeasure s.visited u) u qu (by omega) (by omega)
            (by rw [hdu, ← hqu])
        have hwn : Walks s.previous (some n) (L' ++ [n]) := by
          refine Walks.cons n L' ?_
          rw [hp]
          exact hw'
        refine ⟨L' ++ [n], hwn, ?_, ?_⟩
        · have hsnoc := @PathTo.snoc g start L' qu u e hp' he
          rw [hto] at hsnoc
          rw [hqeq]
          exact hsnoc
        · simp only [List.length_append, List.length_singleton]
          omega
  intro k
  induction k using Nat.strong_induction_on with
  | _ k ih =>
    intro n q hk hq
    exact hstep k (fun j n' q' hj hle hq' => ih j hj n' q' hle hq') n q hk hq

/-! ## Claim C10 — predecessor chains are well-founded -/

/-- C10: for the maps produced by `executeDijkstraInternal` from any graph
and start node, every predecessor entry points to a node visited strictly
earlier (predecessor chains are acyclic), and the backward walk from any node
reaches `null` after finitely many steps, so the reconstruction loop
terminates. -/
theorem C10_predecessor_chains_terminate (g : Graph) (s : Node) :
    (∀ n u, (executeDijkstraInternal g s).previous n = some (some u) →
      u ∈ (dijkstraRun g s).visited ∧
      (n ∈ (dijkstraRun g s).visited →
        listIdx (dijkstraRun g s).visited u < listIdx (dijkstraRun g s).visited n)) ∧
    (∀ n, ∃ L, Walks (executeDijkstraInternal g s).previous (some n) L) := by
  have hInv := dijkstraRun_inv g s
  constructor
  · intro n u hn
    exact ⟨hInv.prevVisited n u hn, hInv.prevOrder n u hn⟩
  · intro n
    obtain ⟨L, hw, -⟩ := walks_exists hInv n
    exact ⟨L, hw⟩

/-! ## Membership in `extractAllNodes` -/

theorem mem_jsSetAdd {l : List Node} {x y : Node} :
    x ∈ jsSetAdd l y ↔ x ∈ l ∨ x = y := by
  unfold jsSetAdd
  by_cases h : y ∈ l
  · rw [if_pos h]
    constructor
    · exact Or.inl
    · rintro (hx | hx)
      · exact hx
      · exact hx ▸ h
  · rw [if_neg h]
    simp

theorem jsSetAdd_nodup {l : List Node} {x : Node} (h : l.Nodup) :
    (jsSetAdd l x).Nodup := by
  unfold jsSetAdd
  by_cases hx : x ∈ l
  · rw [if_pos hx]
    exact h
  · rw [if_neg hx]
    refine List.Nodup.append h (List.nodup_singleton _) ?_
    intro a ha hb
    rw [List.mem_singleton] at hb
    subst hb
    exact hx ha

theorem mem_foldl_jsSetAdd {β : Type} (f : β → Node) (l : List β) :
    ∀ (acc : List Node) (x : Node),
      x ∈ l.foldl (fun acc b => jsSetAdd acc (f b)) acc ↔
        x ∈ acc ∨ ∃ b ∈ l, f b = x := by
  induction l with
  | nil =>
    intro acc x
    simp
  | cons b rest ih =>
    intro acc x
    rw [List.foldl_cons, ih]
    rw [mem_jsSetAdd]
    constructor
    · rintro ((hx | hx) | ⟨b', hb', hf⟩)
      · exact Or.inl hx
      · exact Or.inr ⟨b, List.mem_cons_self _ _, hx.symm⟩
      · exact Or.inr ⟨b', List.mem_cons_of_mem _ hb', hf⟩
    · rintro (hx | ⟨b', hb', hf⟩)
      · exact Or.inl (Or.inl hx)
      · rcases List.mem_cons.mp hb' with hb' | hb'
        · subst hb'
          exact Or.inl (Or.inr hf.symm)
        · exact Or.inr ⟨b', hb', hf⟩

theorem foldl_jsSetAdd_nodup {β : Type} (f : β → Node) (l : List β) :
    ∀ acc : List Node, acc.Nodup →
      (l.foldl (fun acc b => jsSetAdd acc (f b)) acc).Nodup := by
  induction l with
  | nil => intro acc h; exact h
  | cons b rest ih =>
    intro acc h
    rw [List.foldl_cons]
    exact ih _ (jsSetAdd_nodup h)

theorem mem_foldl_dests (l : Graph) :
    ∀ (acc : List Node) (x : Node),
      x ∈ l.foldl (fun acc p =>
          p.2.foldl (fun acc e => jsSetAdd acc e.«to») acc) acc ↔
        x ∈ acc ∨ destOf l x := by
  induction l with
  | nil =>
    intro acc x
    simp only [List.foldl_nil]
    constructor
    · exact Or.inl
    · rintro (hx | ⟨p, hp, -⟩)
      · exact hx
      · cases hp
  | cons p rest ih =>
    intro acc x
    rw [List.foldl_cons, ih]
    have hin : x ∈ p.2.foldl (fun acc e => jsSetAdd acc e.«to») acc ↔
        x ∈ acc ∨ ∃ b ∈ p.2, b.«to» = x :=
      mem_foldl_jsSetAdd (fun e : Edge => e.«to») p.2 acc x
    rw [hin, destOf_cons]
    constructor
    · rintro ((hx | hx) | hd)
      · exact Or.inl hx
      · exact Or.inr (Or.inl hx)
      · exact Or.inr (Or.inr hd)
    · rintro (hx | (hx | hd))
      · exact Or.inl (Or.inl hx)
      · exact Or.inl (Or.inr hx)
      · exact Or.inr hd

theorem foldl_dests_nodup (l : Graph) :
    ∀ acc : List Node, acc.Nodup →
      (l.foldl (fun acc p =>
        p.2.foldl (fun acc e => jsSetAdd acc e.«to») acc) acc).Nodup := by
  induction l with
  | nil => intro acc h; exact h
  | cons p rest ih =>
    intro acc h
    rw [List.foldl_cons]
    exact ih _ (foldl_jsSetAdd_nodup (fun e : Edge => e.«to») p.2 acc h)

theorem mem_extractAllNodes {g : Graph} {n : Node} :
    n ∈ extractAllNodes g ↔ knownNode g n := by
  unfold extractAllNodes
  rw [mem_foldl_dests]
  have hkeys := mem_foldl_jsSetAdd (Prod.fst (β := List Edge)) g [] n
  rw [hkeys, knownNode_iff]
  constructor
  · rintro ((hx | ⟨b, hb, hf⟩) | hd)
    · cases hx
    · exact Or.inl (List.mem_map.mpr ⟨b, hb, hf⟩)
    · exact Or.inr hd
  · rintro (hk | hd)
    · obtain ⟨b, hb, hf⟩ := List.mem_map.mp hk
      exact Or.inl (Or.inr ⟨b, hb, hf⟩)
    · exact Or.inr hd

theorem extractAllNodes_nodup (g : Graph) : (extractAllNodes g).Nodup := by
  unfold extractAllNodes
  exact foldl_dests_nodup g _
    (foldl_jsSetAdd_nodup (Prod.fst (β := List Edge)) g [] List.nodup_nil)

/-- Bound on the number of visited nodes. -/
theorem visited_length_le {g : Graph} {start : Node} {s : DijkstraState}
    (hInv : DInv g start s) :
    s.visited.length ≤ (extractAllNodes g).length + 1 := by
  classical
  have hsub : s.visited.toFinset ⊆ insert start (extractAllNodes g).toFinset := by
    intro a ha
    rw [List.mem_toFinset] at ha
    rcases hInv.visitedKnown a ha with h | h
    · subst h
      exact Finset.mem_insert_self _ _
    · exact Finset.mem_insert_of_mem (List.mem_toFinset.mpr (mem_extractAllNodes.mpr h))
  have h1 : s.visited.length = s.visited.toFinset.card :=
    (List.toFinset_card_of_nodup hInv.visitedNodup).symm
  have h2 : s.visited.toFinset.card ≤ (insert start (extractAllNodes g).toFinset).card :=
    Finset.card_le_card hsub
  have h3 : (insert start (extractAllNodes g).toFinset).card ≤
      (extractAllNodes g).toFinset.card + 1 := Finset.card_insert_le _ _
  have h4 : (extractAllNodes g).toFinset.card ≤ (extractAllNodes g).length :=
    (extractAllNodes g).toFinset_card_le
  omega

/-! ## Claim C3 — successful results carry a valid path -/

/-- C3: whenever `findPaths` succeeds (on a graph whose weights respect the
`Weight` data model, i.e. are non-negative), the returned path starts at the
source, ends at the target, is non-empty, consecutive nodes are joined by
edges stored in the graph, and the returned distance is the (non-negative)
sum of those edges' weights. -/
theorem C3_success_path_valid (g : Graph) (s t : Node) (r : ShortestPath)
    (hnn : NonnegG g) (h : findPaths g s t = Except.ok r) :
    r.path.head? = some s ∧ r.path.getLast? = some t ∧ r.path ≠ [] ∧
    ∃ q : ℚ, r.distance = ((q : ℚ) : JsDist) ∧ 0 ≤ q ∧ PathTo g s r.path q t := by
  obtain ⟨hlen, hhas, hrec⟩ := findPaths_ok_inv h
  obtain ⟨d, hd, hdne, hr⟩ := reconstructPathInternal_ok_inv hrec
  have hInv := dijkstraRun_inv g s
  have hNN := dijkstraRun_nn g s hnn
  obtain ⟨q, hq⟩ := WithTop.ne_top_iff_exists.mp hdne
  have hd' : (dijkstraRun g s).distances t = some ((q : ℚ) : JsDist) := by
    rw [hq]
    exact hd
  obtain ⟨L, hwalks, hpath, hlenL⟩ := dist_path_exists hInv t q hd'
  have hq0 : 0 ≤ q := by
    have := hNN.distNonneg t d hd
    rw [← hq] at this
    exact_mod_cast this
  have hfuel : L.length ≤ walkFuel g := by
    have hvl := visited_length_le hInv
    unfold walkFuel
    omega
  have hpathEq : r.path = L := by
    rw [hr]
    show walkLoop (dijkstraRun g s).previous (walkFuel g) (some t) [] = L
    rw [walkLoop_eq_of_walks hwalks (walkFuel g) hfuel []]
    simp
  refine ⟨?_, ?_, ?_, q, ?_, hq0, ?_⟩
  · rw [hpathEq]
    exact PathTo_head hpath
  · rw [hpathEq]
    exact PathTo_getLast hpath
  · rw [hpathEq]
    exact PathTo_ne_nil hpath
  · rw [hr, ← hq]
  · rw [hpathEq]
    exact hpath

/-- The spec's seven-edge example graph, as built by `buildGraph`. -/
def specGraph : Graph :=
  [(JsValue.str "A",
    [⟨JsValue.str "A", JsValue.str "B", (4 : ℚ)⟩,
     ⟨JsValue.str "A", JsValue.str "C", (2 : ℚ)⟩]),
   (JsValue.str "B",
    [⟨JsValue.str "B", JsValue.str "C", (1 : ℚ)⟩,
     ⟨JsValue.str "B", JsValue.str "D", (5 : ℚ)⟩]),
   (JsValue.str "C",
    [⟨JsValue.str "C", JsValue.str "D", (8 : ℚ)⟩,
     ⟨JsValue.str "C", JsValue.str "E", (10 : ℚ)⟩]),
   (JsValue.str "D",
    [⟨JsValue.str "D", JsValue.str "E", (2 : ℚ)⟩]),
   (JsValue.str "E", [])]

/-- Witness for C3 at the spec's scenario 2: `findPaths(g, "A", "C")` returns
path `[A, C]` with distance 2. -/
theorem C3_success_path_valid_witness :
    NonnegG specGraph ∧
    findPaths specGraph (JsValue.str "A") (JsValue.str "C") =
      Except.ok ⟨[JsValue.str "A", JsValue.str "C"], ((2 : ℚ) : JsDist)⟩ ∧
    ([JsValue.str "A", JsValue.str "C"] : List Node).head? = some (JsValue.str "A") ∧
    ([JsValue.str "A", JsValue.str "C"] : List Node).getLast? = some (JsValue.str "C") ∧
    ∃ q : ℚ, ((2 : ℚ) : JsDist) = ((q : ℚ) : JsDist) ∧ 0 ≤ q ∧
      PathTo specGraph (JsValue.str "A") [JsValue.str "A", JsValue.str "C"] q
        (JsValue.str "C") := by
  have hnn : NonnegG specGraph := by
    show ∀ p ∈ specGraph, ∀ e ∈ p.2, 0 ≤ e.weight
    decide
  have hok : findPaths specGraph (JsValue.str "A") (JsValue.str "C") =
      Except.ok ⟨[JsValue.str "A", JsValue.str "C"], ((2 : ℚ) : JsDist)⟩ := by
    with_unfolding_all rfl
  have := C3_success_path_valid specGraph (JsValue.str "A") (JsValue.str "C")
    ⟨[JsValue.str "A", JsValue.str "C"], ((2 : ℚ) : JsDist)⟩ hnn hok
  exact ⟨hnn, hok, this.1, this.2.1, this.2.2.2⟩

/-! ## Claim C5 — self paths -/

/-- In a built graph, every known node (key or destination) is a key. -/
theorem buildGraph_known_is_key {edges : List Edge} {g : Graph}
    (h : buildGraph edges = Except.ok g) :
    ∀ n, knownNode g n → n ∈ mapKeys g := by
  obtain ⟨hg, -, -⟩ := buildGraph_ok_inv h
  have hinv := buildAdjacencyList_inv edges
  intro n hn
  rcases hn with hk | ⟨⟨k, es⟩, hp, e, he, hto⟩
  · exact hk
  · subst hg
    have hget : assocGet (buildAdjacencyList edges) k = some es :=
      assocGet_of_mem_of_nodup _ hinv.nodup k es hp
    have hfil := hinv.get_eq _ _ hget
    rw [hfil] at he
    have hedge : e ∈ edges := List.mem_of_mem_filter he
    exact (hinv.keys_iff n).mpr ⟨e, hedge, Or.inr hto⟩

/-- C5: on any graph produced by `buildGraph`, `findPaths(g, s, s)` returns
the single-node path `[s]` with distance 0 for every node `s` of the graph
(key or edge destination; `s` is a node of the specification's data model:
a text label or a finite number), and on the empty graph it returns
`NodeNotFound(s)`. -/
theorem C5_self_path (edges : List Edge) (g : Graph) (s : Node)
    (h : buildGraph edges = Except.ok g) (hs : knownNode g s)
    (hspec : specNode s) :
    findPaths g s s = Except.ok ⟨[s], ((0 : ℚ) : JsDist)⟩ ∧
    findPaths ([] : Graph) s s = Except.error (PathError.NodeNotFound s) := by
  have hkey : s ∈ mapKeys g := buildGraph_known_is_key h s hs
  have hnan : s ≠ JsValue.nan := by
    rcases hspec with ⟨str, hstr⟩ | ⟨q, hq⟩
    · rw [hstr]
      intro hh
      cases hh
    · rw [hq]
      intro hh
      cases hh
  have hnng : NonnegG g := buildGraph_weights_nonneg h
  have hNN := dijkstraRun_nn g s hnng
  obtain ⟨hz1, hz2⟩ := hNN.startZero hkey hnan
  have hglen : ¬ g.length = 0 := by
    intro h0
    rw [List.length_eq_zero.mp h0] at hkey
    cases hkey
  have hhas : assocHas g s = true := (assocHas_iff_mem_mapKeys g s).mpr hkey
  constructor
  · have hwalk : walkLoop (dijkstraRun g s).previous (walkFuel g) (some s) [] = [s] := by
      have hw : Walks (dijkstraRun g s).previous (some s) [s] := by
        have hnil : Walks (dijkstraRun g s).previous
            (((dijkstraRun g s).previous s).getD none) [] := by
          rw [hz2]
          exact Walks.nil
        have := @Walks.cons (dijkstraRun g s).previous s [] hnil
        simpa using this
      rw [walkLoop_eq_of_walks hw (walkFuel g) (by unfold walkFuel; simp) []]
      simp
    have hrec : reconstructPathInternal (walkFuel g)
        (executeDijkstraInternal g s).previous
        (executeDijkstraInternal g s).distances s =
        Except.ok ⟨[s], ((0 : ℚ) : JsDist)⟩ := by
      unfold reconstructPathInternal
      have hds : (executeDijkstraInternal g s).distances s = some 0 := hz1
      rw [hds]
      rw [if_neg (by simp)]
      simp only [Option.getD_some]
      rw [if_neg (by
        intro hh
        exact WithTop.coe_ne_top ((by norm_num : ((0 : ℚ) : JsDist) = 0) ▸ hh))]
      have hwalk' : walkLoop (executeDijkstraInternal g s).previous (walkFuel g)
          (some s) [] = [s] := hwalk
      rw [hwalk']
      norm_num
    unfold findPaths
    dsimp only
    rw [if_neg hglen, if_neg (not_not_intro hhas), hrec]
  · rfl

/-- Witness for C5 at the one-edge graph `A → B (weight 1)` and node `A`. -/
theorem C5_self_path_witness :
    buildGraph [⟨JsValue.str "A", JsValue.str "B", (1 : ℚ)⟩] =
      Except.ok [(JsValue.str "A", [⟨JsValue.str "A", JsValue.str "B", (1 : ℚ)⟩]),
                 (JsValue.str "B", [])] ∧
    knownNode [(JsValue.str "A", [(⟨JsValue.str "A", JsValue.str "B", (1 : ℚ)⟩ : Edge)]),
               (JsValue.str "B", [])] (JsValue.str "A") ∧
    specNode (JsValue.str "A") ∧
    findPaths [(JsValue.str "A", [(⟨JsValue.str "A", JsValue.str "B", (1 : ℚ)⟩ : Edge)]),
               (JsValue.str "B", [])] (JsValue.str "A") (JsValue.str "A") =
      Except.ok ⟨[JsValue.str "A"], ((0 : ℚ) : JsDist)⟩ ∧
    findPaths ([] : Graph) (JsValue.str "A") (JsValue.str "A") =
      Except.error (PathError.NodeNotFound (JsValue.str "A")) := by
  have hok : buildGraph [⟨JsValue.str "A", JsValue.str "B", (1 : ℚ)⟩] =
      Except.ok [(JsValue.str "A", [⟨JsValue.str "A", JsValue.str "B", (1 : ℚ)⟩]),
                 (JsValue.str "B", [])] := by
    with_unfolding_all rfl
  have hknown : knownNode
      [(JsValue.str "A", [(⟨JsValue.str "A", JsValue.str "B", (1 : ℚ)⟩ : Edge)]),
       (JsValue.str "B", [])] (JsValue.str "A") :=
    Or.inl (List.mem_cons_self _ _)
  have hspec : specNode (JsValue.str "A") := Or.inl ⟨"A", rfl⟩
  have := C5_self_path [⟨JsValue.str "A", JsValue.str "B", (1 : ℚ)⟩] _
    (JsValue.str "A") hok hknown hspec
  exact ⟨hok, hknown, hspec, this.1, this.2⟩

/-! ## Claim C7 — connected components (undirected reachability) -/

/-- A graph all of whose nodes satisfy the specification's `Node` data model
(text label or finite number). -/
def WellFormedG (g : Graph) : Prop :=
  ∀ n, knownNode g n → specNode n

theorem specNode_ne_nan {n : Node} (h : specNode n) : n ≠ JsValue.nan := by
  rcases h with ⟨s, hs⟩ | ⟨q, hq⟩
  · rw [hs]
    intro hh
    cases hh
  · rw [hq]
    intro hh
    cases hh

theorem strictEq_of_eq {a b : Node} (hnan : a ≠ JsValue.nan) (h : a = b) :
    strictEq a b = true := by
  subst h
  exact strictEq_self hnan

/-- One undirected step: a stored edge connects `u` and `v` in either
direction. -/
def ustep (g : Graph) (u v : Node) : Prop :=
  (∃ e ∈ (assocGet g u).getD [], e.«to» = v) ∨
  (∃ e ∈ (assocGet g v).getD [], e.«to» = u)

/-- Undirected reachability: the reflexive-transitive closure of `ustep`. -/
def UReach (g : Graph) : Node → Node → Prop :=
  Relation.ReflTransGen (ustep g)

theorem ustep_symm {g : Graph} {u v : Node} (h : ustep g u v) : ustep g v u :=
  h.elim Or.inr Or.inl

theorem UReach_symm {g : Graph} {u v : Node} (h : UReach g u v) : UReach g v u := by
  induction h with
  | refl => exact Relation.ReflTransGen.refl
  | tail _ hstep ih =>
    exact Relation.ReflTransGen.trans
      (Relation.ReflTransGen.single (ustep_symm hstep)) ih

theorem UReach_trans {g : Graph} {u v w : Node} (h1 : UReach g u v)
    (h2 : UReach g v w) : UReach g u w :=
  Relation.ReflTransGen.trans h1 h2

theorem ustep_known_right {g : Graph} {u v : Node} (h : ustep g u v) :
    knownNode g v := by
  rcases h with ⟨e, he, hto⟩ | ⟨e, he, hto⟩
  · exact hto ▸ known_of_mem_outE he
  · cases hget : assocGet g v with
    | none =>
      rw [hget] at he
      cases he
    | some l =>
      exact Or.inl ((assocGet_isSome_iff_mem_mapKeys g v).mp (by rw [hget]; rfl))

/-- Nodes of a closed visited set absorb undirected reachability. -/
theorem closed_absorbs {g : Graph} {visited : List Node}
    (hcl : ∀ u ∈ visited, ∀ v, ustep g u v → v ∈ visited) :
    ∀ u v, u ∈ visited → UReach g u v → v ∈ visited := by
  intro u v hu0 hr
  induction hr with
  | refl => exact hu0
  | tail _ hstep ih => exact hcl _ ih _ hstep

theorem mem_addDirect {g : Graph} {current : Node} {visited : List Node}
    {x : Node} :
    x ∈ addDirectAdjacentNodes g current visited ↔
      ∃ e ∈ (assocGet g current).getD [], e.«to» = x ∧ x ∉ visited := by
  simp only [addDirectAdjacentNodes, List.mem_map, List.mem_filter,
    decide_eq_true_eq]
  constructor
  · rintro ⟨e, ⟨he, hnv⟩, rfl⟩
    exact ⟨e, he, rfl, hnv⟩
  · rintro ⟨e, he, rfl, hnv⟩
    exact ⟨e, ⟨he, hnv⟩, rfl⟩

theorem mem_addReverse {g : Graph} {current : Node} {visited : List Node}
    {x : Node} (hwf : WellFormedG g) (hnd : (mapKeys g).Nodup) :
    x ∈ addReverseAdjacentNodes g current visited ↔
      (∃ e ∈ (assocGet g x).getD [], e.«to» = current) ∧ x ∉ visited := by
  simp only [addReverseAdjacentNodes, List.mem_flatten, List.mem_map]
  constructor
  · rintro ⟨inner, ⟨p, hp, rfl⟩, hin⟩
    simp only [List.mem_map, List.mem_filter, Bool.and_eq_true,
      decide_eq_true_eq] at hin
    obtain ⟨e, ⟨he, hcond, hnv⟩, rfl⟩ := hin
    have hto : e.«to» = current := eq_of_strictEq hcond
    have hget : assocGet g p.1 = some p.2 := by
      obtain ⟨k, v⟩ := p
      exact assocGet_of_mem_of_nodup _ hnd k v hp
    refine ⟨⟨e, ?_, hto⟩, hnv⟩
    rw [hget]
    exact he
  · rintro ⟨⟨e, he, hto⟩, hnv⟩
    cases hget : assocGet g x with
    | none =>
      rw [hget] at he
      cases he
    | some l =>
      rw [hget] at he
      have hkey : (x, l) ∈ g := assocGet_mem hget
      refine ⟨(l.filter
          (fun e => strictEq e.«to» current && decide (x ∉ visited))).map
          (fun _ => x), ⟨(x, l), hkey, rfl⟩, ?_⟩
      simp only [List.mem_map, List.mem_filter, Bool.and_eq_true,
        decide_eq_true_eq]
      refine ⟨e, ⟨he, ?_, ?_⟩, trivial⟩
      · have hdest : knownNode g e.«to» := known_of_mem_outE (by
          rw [hget]
          exact he)
        exact strictEq_of_eq (specNode_ne_nan (hwf _ hdest)) hto
      · simpa using hnv

theorem mem_addAdjacent {g : Graph} {current : Node} {visited : List Node}
    {x : Node} (hwf : WellFormedG g) (hnd : (mapKeys g).Nodup) :
    x ∈ addAdjacentNodes g current visited ↔
      ustep g current x ∧ x ∉ visited := by
  unfold addAdjacentNodes
  rw [List.mem_append, mem_addDirect, mem_addReverse hwf hnd]
  constructor
  · rintro (⟨e, he, hto, hnv⟩ | ⟨⟨e, he, hto⟩, hnv⟩)
    · exact ⟨Or.inl ⟨e, he, hto⟩, hnv⟩
    · exact ⟨Or.inr ⟨e, he, hto⟩, hnv⟩
  · rintro ⟨hstep | hstep, hnv⟩
    · obtain ⟨e, he, hto⟩ := hstep
      exact Or.inl ⟨e, he, hto, hnv⟩
    · exact Or.inr ⟨hstep, hnv⟩

/-! ### Fuel accounting for the exploration loop -/

theorem outE_length_le (g : Graph) (current : Node) :
    ((assocGet g current).getD []).length ≤ calculateEdgeCount g := by
  cases hget : assocGet g current with
  | none => simp
  | some l =>
    simp only [Option.getD_some]
    rw [calculateEdgeCount_eq_sum]
    have hmem : (current, l) ∈ g := assocGet_mem hget
    have := List.single_le_sum (l := g.map (fun p => p.2.length))
      (by intro x hx; exact Nat.zero_le x) l.length
      (List.mem_map.mpr ⟨(current, l), hmem, rfl⟩)
    exact this

theorem addDirect_length_le (g : Graph) (current : Node) (visited : List Node) :
    (addDirectAdjacentNodes g current visited).length ≤ calculateEdgeCount g := by
  unfold addDirectAdjacentNodes
  rw [List.length_map]
  exact le_trans (List.length_filter_le _ _) (outE_length_le g current)

theorem addReverse_length_le (g : Graph) (current : Node) (visited : List Node) :
    (addReverseAdjacentNodes g current visited).length ≤ calculateEdgeCount g := by
  unfold addReverseAdjacentNodes
  rw [List.length_flatten, calculateEdgeCount_eq_sum]
  rw [List.map_map]
  refine List.sum_le_sum ?_
  intro p hp
  simp only [Function.comp_apply, List.length_map]
  exact List.length_filter_le _ _

theorem addAdjacent_length_le (g : Graph) (current : Node) (visited : List Node) :
    (addAdjacentNodes g current visited).length ≤ 2 * calculateEdgeCount g := by
  unfold addAdjacentNodes
  rw [List.length_append]
  have h1 := addDirect_length_le g current visited
  have h2 := addReverse_length_le g current visited
  omega

/-- The termination measure of `exploreLoop`. -/
def exploreMeasure (g : Graph) (visited stack : List Node) : ℕ :=
  ((extractAllNodes g).toFinset \ visited.toFinset).card *
    (1 + 2 * calculateEdgeCount g) + stack.length

theorem exploreLoop_succ (g : Graph) (fuel : ℕ)
    (visited component stack : List Node) (h : stack ≠ []) :
    exploreLoop g (fuel + 1) visited component stack =
      if stack.getLast h ∈ visited then
        exploreLoop g fuel visited component stack.dropLast
      else
        exploreLoop g fuel (visited ++ [stack.getLast h])
          (component ++ [stack.getLast h])
          (stack.dropLast ++ addAdjacentNodes g (stack.getLast h)
            (visited ++ [stack.getLast h])) := by
  conv_lhs => rw [exploreLoop]
  rw [dif_neg h]

theorem exploreLoop_spec (g : Graph) (hwf : WellFormedG g)
    (hnd : (mapKeys g).Nodup) (visited₀ : List Node) (start : Node) :
    ∀ (fuel : ℕ) (visited component stack : List Node),
      visited = visited₀ ++ component →
      (∀ x ∈ component, UReach g start x ∧ x ∉ visited₀ ∧ x ∈ extractAllNodes g) →
      component.Nodup →
      (∀ x ∈ stack, UReach g start x ∧ x ∈ extractAllNodes g) →
      (∀ u ∈ component, ∀ v, ustep g u v → v ∈ visited ∨ v ∈ stack) →
      exploreMeasure g visited stack ≤ fuel →
      (exploreLoop g fuel visited component stack).1 =
        visited₀ ++ (exploreLoop g fuel visited component stack).2 ∧
      (∀ x ∈ (exploreLoop g fuel visited component stack).2,
        UReach g start x ∧ x ∉ visited₀ ∧ x ∈ extractAllNodes g) ∧
      (exploreLoop g fuel visited component stack).2.Nodup ∧
      (∀ x ∈ component, x ∈ (exploreLoop g fuel visited component stack).2) ∧
      (∀ x ∈ stack, x ∈ (exploreLoop g fuel visited component stack).1) ∧
      (∀ u ∈ (exploreLoop g fuel visited component stack).2, ∀ v, ustep g u v →
        v ∈ (exploreLoop g fuel visited component stack).1) := by
  intro fuel
  induction fuel with
  | zero =>
    intro visited component stack hveq hcomp hnodup hstack hclosure hM
    have hstack0 : stack = [] := by
      have : stack.length = 0 := by
        unfold exploreMeasure at hM
        omega
      exact List.length_eq_zero.mp this
    subst hstack0
    refine ⟨hveq, hcomp, hnodup, fun x hx => hx, fun x hx => absurd hx
      (List.not_mem_nil x), ?_⟩
    intro u hu v hv
    rcases hclosure u hu v hv with h | h
    · exact h
    · cases h
  | succ fuel ih =>
    intro visited component stack hveq hcomp hnodup hstack hclosure hM
    by_cases hst : stack = []
    · subst hst
      have hres : exploreLoop g (fuel + 1) visited component [] =
          (visited, component) := by
        rw [exploreLoop]
        rfl
      rw [hres]
      refine ⟨hveq, hcomp, hnodup, fun x hx => hx, fun x hx => absurd hx
        (List.not_mem_nil x), ?_⟩
      intro u hu v hv
      rcases hclosure u hu v hv with h | h
      · exact h
      · cases h
    · rw [exploreLoop_succ g fuel visited component stack hst]
      set current := stack.getLast hst with hcurdef
      have hcurstack : current ∈ stack := List.getLast_mem hst
      have hdecomp : stack.dropLast ++ [current] = stack :=
        List.dropLast_append_getLast hst
      have hstacklen : stack.length = stack.dropLast.length + 1 := by
        conv_lhs => rw [← hdecomp]
        rw [List.length_append, List.length_singleton]
      by_cases hvis : current ∈ visited
      · -- already visited: drop the stack top and continue
        rw [if_pos hvis]
        have hM' : exploreMeasure g visited stack.dropLast ≤ fuel := by
          unfold exploreMeasure at hM ⊢
          omega
        have hstack' : ∀ x ∈ stack.dropLast, UReach g start x ∧
            x ∈ extractAllNodes g := by
          intro x hx
          exact hstack x (by rw [← hdecomp]; exact List.mem_append_left _ hx)
        have hclosure' : ∀ u ∈ component, ∀ v, ustep g u v →
            v ∈ visited ∨ v ∈ stack.dropLast := by
          intro u hu v hv
          rcases hclosure u hu v hv with h | h
          · exact Or.inl h
          · rw [← hdecomp] at h
            rcases List.mem_append.mp h with h | h
            · exact Or.inr h
            · rw [List.mem_singleton] at h
              subst h
              exact Or.inl hvis
        obtain ⟨c1, c2, c3, c4, c5, c6⟩ :=
          ih visited component stack.dropLast hveq hcomp hnodup hstack' hclosure' hM'
        refine ⟨c1, c2, c3, c4, ?_, c6⟩
        intro x hx
        rw [← hdecomp] at hx
        rcases List.mem_append.mp hx with hx | hx
        · exact c5 x hx
        · rw [List.mem_singleton] at hx
          subst hx
          -- `x` is the already-visited stack top
          rcases List.mem_append.mp (hveq ▸ hvis) with h | h
          · rw [c1]
            exact List.mem_append_left _ h
          · rw [c1]
            exact List.mem_append_right _ (c4 _ h)
      · -- a fresh node: visit it and push its undirected neighbors
        rw [if_neg hvis]
        obtain ⟨hcurReach, hcurExtract⟩ := hstack current hcurstack
        have hcurNotComp : current ∉ component := fun hc =>
          hvis (hveq ▸ List.mem_append_right _ hc)
        have hcurNotVis0 : current ∉ visited₀ := fun hc =>
          hvis (hveq ▸ List.mem_append_left _ hc)
        -- measure bookkeeping
        have hcurA : current ∈ (extractAllNodes g).toFinset \ visited.toFinset :=
          Finset.mem_sdiff.mpr ⟨List.mem_toFinset.mpr hcurExtract,
            fun hc => hvis (List.mem_toFinset.mp hc)⟩
        have hset : (extractAllNodes g).toFinset \ (visited ++ [current]).toFinset =
            ((extractAllNodes g).toFinset \ visited.toFinset).erase current := by
          rw [List.toFinset_append]
          ext a
          simp only [Finset.mem_sdiff, Finset.mem_erase, Finset.mem_union,
            List.mem_toFinset, List.toFinset_cons, List.toFinset_nil,
            insert_emptyc_eq, Finset.mem_singleton]
          constructor
          · rintro ⟨ha, hb⟩
            push_neg at hb
            exact ⟨hb.2, ha, hb.1⟩
          · rintro ⟨ha, hb, hc⟩
            refine ⟨hb, ?_⟩
            push_neg
            exact ⟨hc, ha⟩
        have hKpos : 0 < ((extractAllNodes g).toFinset \ visited.toFinset).card :=
          Finset.card_pos.mpr ⟨current, hcurA⟩
        have hKdec : ((extractAllNodes g).toFinset \
            (visited ++ [current]).toFinset).card =
            ((extractAllNodes g).toFinset \ visited.toFinset).card - 1 := by
          rw [hset, Finset.card_erase_of_mem hcurA]
        have hpush := addAdjacent_length_le g current (visited ++ [current])
        have hM' : exploreMeasure g (visited ++ [current])
            (stack.dropLast ++ addAdjacentNodes g current (visited ++ [current])) ≤
            fuel := by
          unfold exploreMeasure at hM ⊢
          rw [hKdec, List.length_append]
          set K := ((extractAllNodes g).toFinset \ visited.toFinset).card with hK
          set P := 1 + 2 * calculateEdgeCount g with hP
          have hKP : (K - 1) * P + P = K * P := by
            rw [Nat.sub_one_mul, Nat.sub_add_cancel (Nat.le_mul_of_pos_left P hKpos)]
          omega
        -- re-established invariant
        have hveq' : visited ++ [current] = visited₀ ++ (component ++ [current]) := by
          rw [hveq, List.append_assoc]
        have hcomp' : ∀ x ∈ component ++ [current],
            UReach g start x ∧ x ∉ visited₀ ∧ x ∈ extractAllNodes g := by
          intro x hx
          rcases List.mem_append.mp hx with hx | hx
          · exact hcomp x hx
          · rw [List.mem_singleton] at hx
            subst hx
            exact ⟨hcurReach, hcurNotVis0, hcurExtract⟩
        have hnodup' : (component ++ [current]).Nodup := by
          refine List.Nodup.append hnodup (List.nodup_singleton _) ?_
          intro a ha hb
          rw [List.mem_singleton] at hb
          subst hb
          exact hcurNotComp ha
        have hstack'' : ∀ x ∈ stack.dropLast ++
            addAdjacentNodes g current (visited ++ [current]),
            UReach g start x ∧ x ∈ extractAllNodes g := by
          intro x hx
          rcases List.mem_append.mp hx with hx | hx
          · exact hstack x (by rw [← hdecomp]; exact List.mem_append_left _ hx)
          · obtain ⟨hstep, -⟩ := (mem_addAdjacent hwf hnd).mp hx
            exact ⟨UReach_trans hcurReach (Relation.ReflTransGen.single hstep),
              mem_extractAllNodes.mpr (ustep_known_right hstep)⟩
        have hclosure'' : ∀ u ∈ component ++ [current], ∀ v, ustep g u v →
            v ∈ visited ++ [current] ∨ v ∈ stack.dropLast ++
              addAdjacentNodes g current (visited ++ [current]) := by
          intro u hu v hv
          rcases List.mem_append.mp hu with hu | hu
          · rcases hclosure u hu v hv with h | h
            · exact Or.inl (List.mem_append_left _ h)
            · rw [← hdecomp] at h
              rcases List.mem_append.mp h with h | h
              · exact Or.inr (List.mem_append_left _ h)
              · rw [List.mem_singleton] at h
                subst h
                exact Or.inl (List.mem_append_right _ (List.mem_singleton_self _))
          · rw [List.mem_singleton] at hu
            subst hu
            by_cases hvv : v ∈ visited ++ [current]
            · exact Or.inl hvv
            · refine Or.inr (List.mem_append_right _ ?_)
              exact (mem_addAdjacent hwf hnd).mpr ⟨hv, hvv⟩
        obtain ⟨c1, c2, c3, c4, c5, c6⟩ :=
          ih (visited ++ [current]) (component ++ [current])
            (stack.dropLast ++ addAdjacentNodes g current (visited ++ [current]))
            hveq' hcomp' hnodup' hstack'' hclosure'' hM'
        refine ⟨c1, c2, c3, ?_, ?_, c6⟩
        · intro x hx
          exact c4 x (List.mem_append_left _ hx)
        · intro x hx
          rw [← hdecomp] at hx
          rcases List.mem_append.mp hx with hx | hx
          · exact c5 x (List.mem_append_left _ hx)
          · rw [List.mem_singleton] at hx
            subst hx
            rw [c1]
            exact List.mem_append_right _
              (c4 _ (List.mem_append_right _ (List.mem_singleton_self _)))

theorem exploreComponent_spec (g : Graph) (hwf : WellFormedG g)
    (hnd : (mapKeys g).Nodup) (visited₀ : List Node) (start : Node)
    (hstart : start ∈ extractAllNodes g) :
    (exploreComponent g start visited₀).1 =
      visited₀ ++ (exploreComponent g start visited₀).2 ∧
    (∀ x ∈ (exploreComponent g start visited₀).2,
      UReach g start x ∧ x ∉ visited₀ ∧ x ∈ extractAllNodes g) ∧
    (exploreComponent g start visited₀).2.Nodup ∧
    start ∈ (exploreComponent g start visited₀).1 ∧
    (∀ u ∈ (exploreComponent g start visited₀).2, ∀ v, ustep g u v →
      v ∈ (exploreComponent g start visited₀).1) := by
  have hM : exploreMeasure g visited₀ [start] ≤ exploreFuel g := by
    unfold exploreMeasure exploreFuel
    have hKN : ((extractAllNodes g).toFinset \ visited₀.toFinset).card ≤
        (extractAllNodes g).length :=
      le_trans (Finset.card_le_card Finset.sdiff_subset)
        (List.toFinset_card_le (extractAllNodes g))
    have hmul := Nat.mul_le_mul_right (1 + 2 * calculateEdgeCount g) hKN
    simp only [List.length_singleton]
    omega
  obtain ⟨c1, c2, c3, c4, c5, c6⟩ := exploreLoop_spec g hwf hnd visited₀ start
    (exploreFuel g) visited₀ [] [start] (List.append_nil visited₀).symm
    (fun x hx => absurd hx (List.not_mem_nil x))
    List.nodup_nil
    (fun x hx => by
      rw [List.mem_singleton] at hx
      subst hx
      exact ⟨Relation.ReflTransGen.refl, hstart⟩)
    (fun u hu => absurd hu (List.not_mem_nil u))
    hM
  exact ⟨c1, c2, c3, c5 start (List.mem_singleton_self start), c6⟩

/-- One step of the `findConnectedComponents` fold. -/
def fccStep (g : Graph) (acc : List Node × List (List Node)) (startNode : Node) :
    List Node × List (List Node) :=
  if startNode ∈ acc.1 then acc
  else
    let r := exploreComponent g startNode acc.1
    (r.1, acc.2 ++ [r.2])

theorem findConnectedComponents_eq_fold (g : Graph) (allNodes : List Node) :
    findConnectedComponents g allNodes =
      (allNodes.foldl (fccStep g) ([], [])).2 := rfl

/-- Invariant of the `findConnectedComponents` fold: the visited list is the
flattening of the components found so far, it has no duplicates, it only holds
nodes of the graph, it is closed under undirected steps, and every recorded
component is an equivalence class of `UReach` and is non-empty. -/
def FccInv (g : Graph) (acc : List Node × List (List Node)) : Prop :=
  acc.1 = acc.2.flatten ∧ acc.1.Nodup ∧
  (∀ x ∈ acc.1, x ∈ extractAllNodes g) ∧
  (∀ u ∈ acc.1, ∀ v, ustep g u v → v ∈ acc.1) ∧
  (∀ c ∈ acc.2, ∀ u ∈ c, ∀ x, x ∈ c ↔ UReach g u x) ∧
  (∀ c ∈ acc.2, c ≠ [])

theorem fccStep_inv {g : Graph} (hwf : WellFormedG g)
    (hnd : (mapKeys g).Nodup) {acc : List Node × List (List Node)} {s : Node}
    (hs : s ∈ extractAllNodes g) (hI : FccInv g acc) :
    FccInv g (fccStep g acc s) ∧ s ∈ (fccStep g acc s).1 ∧
      (∀ x ∈ acc.1, x ∈ (fccStep g acc s).1) := by
  obtain ⟨h1, h2, h3, h4, h5, h6⟩ := hI
  by_cases hmem : s ∈ acc.1
  · rw [fccStep, if_pos hmem]
    exact ⟨⟨h1, h2, h3, h4, h5, h6⟩, hmem, fun x hx => hx⟩
  · have hstep : fccStep g acc s =
        ((exploreComponent g s acc.1).1,
          acc.2 ++ [(exploreComponent g s acc.1).2]) := by
      rw [fccStep, if_neg hmem]
    obtain ⟨c1, c2, c3, c4, c6⟩ := exploreComponent_spec g hwf hnd acc.1 s hs
    set V := (exploreComponent g s acc.1).1 with hV
    set C := (exploreComponent g s acc.1).2 with hC
    have hVclosed : ∀ u ∈ V, ∀ v, ustep g u v → v ∈ V := by
      intro u hu v hv
      rw [c1] at hu
      rcases List.mem_append.mp hu with hu | hu
      · rw [c1]
        exact List.mem_append_left _ (h4 u hu v hv)
      · exact c6 u hu v hv
    have hcomplete : ∀ x, UReach g s x → x ∈ V :=
      fun x hx => closed_absorbs hVclosed s x c4 hx
    have hnotin0 : ∀ x, UReach g s x → x ∉ acc.1 := by
      intro x hx hin
      exact hmem (closed_absorbs h4 x s hin (UReach_symm hx))
    have hCchar : ∀ x, x ∈ C ↔ UReach g s x := by
      intro x
      constructor
      · intro hx
        exact (c2 x hx).1
      · intro hx
        have hxV := hcomplete x hx
        rw [c1] at hxV
        rcases List.mem_append.mp hxV with h | h
        · exact absurd h (hnotin0 x hx)
        · exact h
    have hsC : s ∈ C := (hCchar s).mpr Relation.ReflTransGen.refl
    rw [hstep]
    refine ⟨⟨?_, ?_, ?_, ?_, ?_, ?_⟩, ?_, ?_⟩
    · show V = (acc.2 ++ [C]).flatten
      rw [c1, h1]
      simp [List.flatten_append]
    · show V.Nodup
      rw [c1]
      refine List.Nodup.append h2 c3 ?_
      intro a ha hb
      exact (c2 a hb).2.1 ha
    · show ∀ x ∈ V, x ∈ extractAllNodes g
      intro x hx
      rw [c1] at hx
      rcases List.mem_append.mp hx with h | h
      · exact h3 x h
      · exact (c2 x h).2.2
    · exact hVclosed
    · show ∀ c ∈ acc.2 ++ [C], ∀ u ∈ c, ∀ x, x ∈ c ↔ UReach g u x
      intro c hc u hu x
      rcases List.mem_append.mp hc with hc | hc
      · exact h5 c hc u hu x
      · rw [List.mem_singleton] at hc
        subst hc
        have hsu : UReach g s u := (hCchar u).mp hu
        rw [hCchar x]
        constructor
        · intro h
          exact UReach_trans (UReach_symm hsu) h
        · intro h
          exact UReach_trans hsu h
    · show ∀ c ∈ acc.2 ++ [C], c ≠ []
      intro c hc
      rcases List.mem_append.mp hc with hc | hc
      · exact h6 c hc
      · rw [List.mem_singleton] at hc
        subst hc
        exact List.ne_nil_of_mem hsC
    · exact c4
    · intro x hx
      rw [c1]
      exact List.mem_append_left _ hx

theorem fccFold_inv {g : Graph} (hwf : WellFormedG g)
    (hnd : (mapKeys g).Nodup) :
    ∀ (todo : List Node) (acc : List Node × List (List Node)),
      (∀ x ∈ todo, x ∈ extractAllNodes g) → FccInv g acc →
      FccInv g (todo.foldl (fccStep g) acc) ∧
      (∀ x ∈ todo, x ∈ (todo.foldl (fccStep g) acc).1) ∧
      (∀ x ∈ acc.1, x ∈ (todo.foldl (fccStep g) acc).1) := by
  intro todo
  induction todo with
  | nil =>
    intro acc _ hI
    exact ⟨hI, fun x hx => absurd hx (List.not_mem_nil x), fun x hx => hx⟩
  | cons s todo ih =>
    intro acc htodo hI
    have hs : s ∈ extractAllNodes g := htodo s (List.mem_cons_self s todo)
    obtain ⟨hI', hsIn, hmono⟩ := fccStep_inv hwf hnd hs hI
    have htodo' : ∀ x ∈ todo, x ∈ extractAllNodes g :=
      fun x hx => htodo x (List.mem_cons_of_mem s hx)
    obtain ⟨rI, rTodo, rMono⟩ := ih (fccStep g acc s) htodo' hI'
    rw [List.foldl_cons]
    refine ⟨rI, ?_, fun x hx => rMono x (hmono x hx)⟩
    intro x hx
    rcases List.mem_cons.mp hx with hx | hx
    · subst hx
      exact rMono x hsIn
    · exact rTodo x hx

/-- C7: for every non-empty graph (over the specification's node data model:
every node of the graph is a text label or a finite number, and the stored key
list has no duplicates, both guaranteed for graphs built by `buildGraph` from
validated edges), `analyzeGraph` succeeds and returns components that
partition the full node set — every node (key or edge destination) belongs to
exactly one component, so the component sizes sum to `nodeCount` — each
component is an equivalence class of the undirected-reachability relation
`UReach` (edges followed in both directions), and `isConnected` is `true` if
and only if there is exactly one component. -/
theorem C7_components_partition_classes {g : Graph} {a : GraphAnalysis}
    (hwf : WellFormedG g) (hnd : (mapKeys g).Nodup)
    (h : analyzeGraph g = Except.ok a) :
    (∀ x, x ∈ a.components.flatten ↔ knownNode g x) ∧
    a.components.flatten.Nodup ∧
    (a.components.map List.length).sum = a.nodeCount ∧
    (∀ c ∈ a.components, ∀ u ∈ c, ∀ x, x ∈ c ↔ UReach g u x) ∧
    (a.isConnected = true ↔ a.components.length = 1) := by
  obtain ⟨h0, hnc, hec, hcomp, hconn, hden⟩ := analyzeGraph_ok_inv h
  have hinit : FccInv g ([], []) := by
    refine ⟨rfl, List.nodup_nil, ?_, ?_, ?_, ?_⟩
    · intro x hx
      cases hx
    · intro u hu
      cases hu
    · intro c hc
      cases hc
    · intro c hc
      cases hc
  obtain ⟨⟨r1, r2, r3, r4, r5, r6⟩, rTodo, -⟩ :=
    fccFold_inv hwf hnd (extractAllNodes g) ([], []) (fun x hx => hx) hinit
  have hc2 : a.components = ((extractAllNodes g).foldl (fccStep g) ([], [])).2 := by
    rw [hcomp, findConnectedComponents_eq_fold]
  have hcover : ∀ x, x ∈ a.components.flatten ↔ knownNode g x := by
    intro x
    rw [hc2, ← r1, ← mem_extractAllNodes]
    exact ⟨fun hx => r3 x hx, fun hx => rTodo x hx⟩
  have hflatnd : a.components.flatten.Nodup := by
    rw [hc2, ← r1]
    exact r2
  refine ⟨hcover, hflatnd, ?_, ?_, ?_⟩
  · have htf : a.components.flatten.toFinset = (extractAllNodes g).toFinset := by
      ext x
      rw [List.mem_toFinset, List.mem_toFinset, hcover x, mem_extractAllNodes]
    calc (a.components.map List.length).sum
        = a.components.flatten.length := (List.length_flatten _).symm
      _ = a.components.flatten.toFinset.card :=
          (List.toFinset_card_of_nodup hflatnd).symm
      _ = (extractAllNodes g).toFinset.card := by rw [htf]
      _ = (extractAllNodes g).length :=
          List.toFinset_card_of_nodup (extractAllNodes_nodup g)
      _ = a.nodeCount := hnc.symm
  · intro c hc
    rw [hc2] at hc
    exact r5 c hc
  · have hne : a.components ≠ [] := by
      obtain ⟨p, rest, hg⟩ : ∃ p rest, g = p :: rest := by
        cases g with
        | nil => exact absurd rfl h0
        | cons p rest => exact ⟨p, rest, rfl⟩
      have hknown : knownNode g p.1 := by
        left
        rw [hg]
        exact List.mem_cons_self _ _
      have hmem : p.1 ∈ a.components.flatten := (hcover p.1).mpr hknown
      obtain ⟨c, hcmem, -⟩ := List.mem_flatten.mp hmem
      exact List.ne_nil_of_mem hcmem
    have hlen : 1 ≤ a.components.length :=
      Nat.pos_of_ne_zero (fun hz => hne (List.length_eq_zero.mp hz))
    rw [hconn]
    simp only [decide_eq_true_eq]
    omega

/-- A concrete two-node graph for exercising `C7_components_partition_classes`:
a single edge from "A" to "B". -/
def gC7 : Graph :=
  [(JsValue.str "A", [⟨JsValue.str "A", JsValue.str "B", 1⟩]),
   (JsValue.str "B", [])]

/-- The analysis `analyzeGraph` computes for `gC7`. -/
def aC7 : GraphAnalysis :=
  { nodeCount := 2, edgeCount := 1, isConnected := true,
    components := [[JsValue.str "A", JsValue.str "B"]], density := 1/2 }

theorem C7_components_partition_classes_witness :
    WellFormedG gC7 ∧ (mapKeys gC7).Nodup ∧
    analyzeGraph gC7 = Except.ok aC7 ∧
    ((∀ x, x ∈ aC7.components.flatten ↔ knownNode gC7 x) ∧
     aC7.components.flatten.Nodup ∧
     (aC7.components.map List.length).sum = aC7.nodeCount ∧
     (∀ c ∈ aC7.components, ∀ u ∈ c, ∀ x, x ∈ c ↔ UReach gC7 u x) ∧
     (aC7.isConnected = true ↔ aC7.components.length = 1)) := by
  have hwf : WellFormedG gC7 := by
    intro n hn
    have hx : n ∈ extractAllNodes gC7 := mem_extractAllNodes.mpr hn
    have hlist : extractAllNodes gC7 = [JsValue.str "A", JsValue.str "B"] := by
      with_unfolding_all rfl
    rw [hlist] at hx
    rcases List.mem_cons.mp hx with h | h
    · exact Or.inl ⟨"A", h⟩
    · rw [List.mem_singleton] at h
      exact Or.inl ⟨"B", h⟩
  have hok : analyzeGraph gC7 = Except.ok aC7 := by
    with_unfolding_all rfl
  exact ⟨hwf, by decide, hok,
    C7_components_partition_classes hwf (by decide) hok⟩
